import Mathlib

/-
Verification of the `ds` container library (binary search tree, binary-heap
priority queue, queue, list, set).  Each Go operation is embedded as a pure
Lean function: cursor loops become structural or well-founded recursion,
in-place pointer updates become reconstruction of the affected subtree, and
Go error returns become `Option`/product results.  A `none` produced by
`insertWalk` marks the nil-pointer dereference the Go code performs when
`size ≠ 0` while `root == nil`.
-/

namespace DS

/-! ## Comparator contract -/

/-- Comparators take two values and return -1, 0 or +1 (package `comparators`). -/
def Comparator (α : Type) : Type := α → α → Int

/-- Model of `comparators.ComparatorInt` (and the other numeric comparators,
which all have the same shape). -/
def comparatorInt : Int → Int → Int := fun a b =>
  if a < b then -1 else if a > b then 1 else 0

/-- Properties of a comparator that realizes a total (pre)order with values in
\x7b-1, 0, +1\x7d: the sign range, the antisymmetry of the sign, and
transitivity of the induced `≤`. -/
structure IsCmp {α : Type} (cmp : α → α → Int) : Prop where
  range : ∀ a b, cmp a b = -1 ∨ cmp a b = 0 ∨ cmp a b = 1
  antisym : ∀ a b, cmp b a = - cmp a b
  le_trans : ∀ a b c, 0 ≤ cmp a b → 0 ≤ cmp b c → 0 ≤ cmp a c

theorem comparatorInt_isCmp : IsCmp comparatorInt := by
  constructor
  · intro a b
    unfold comparatorInt
    split_ifs <;> omega
  · intro a b
    unfold comparatorInt
    split_ifs <;> omega
  · intro a b c hab hbc
    unfold comparatorInt at *
    split_ifs at * <;> omega

/-! ## Binary search tree (src/bst/bst.go)

A `Node` owns a key, a value and its two children.  The tree is a pure value;
rewiring a child pointer is modelled by rebuilding the path from the cursor. -/

inductive Tree (K V : Type) where
  | nil : Tree K V
  | node (key : K) (val : V) (left : Tree K V) (right : Tree K V) : Tree K V
deriving DecidableEq, Repr

namespace Tree

/-- Number of nodes in a tree (used only as a termination measure and for
stating size invariants; the Go code never computes it). -/
def tsize {K V : Type} : Tree K V → Nat
  | .nil => 0
  | .node _ _ l r => 1 + tsize l + tsize r

end Tree

/-- The fresh leaf node `&Node{key: key, val: value}` built by `Insert`. -/
def single {K V : Type} (k : K) (v : V) : Tree K V := .node k v .nil .nil

variable {K V : Type}

/-- Model of the cursor walk of `BST.Insert` for a non-empty tree: descend left
on comparison -1, otherwise right, and attach the new leaf at the first nil
child.  `none` models the nil-pointer dereference the Go loop performs when the
cursor starts at a nil root (reachable only when `size ≠ 0` with `root == nil`). -/
def insertWalk (cmp : K → K → Int) (k : K) (v : V) : Tree K V → Option (Tree K V)
  | .nil => none
  | .node k0 v0 l r =>
    if cmp k k0 = -1 then
      match l with
      | .nil => some (.node k0 v0 (single k v) r)
      | .node .. => (insertWalk cmp k v l).map fun l1 => .node k0 v0 l1 r
    else
      match r with
      | .nil => some (.node k0 v0 l (single k v))
      | .node .. => (insertWalk cmp k v r).map fun r1 => .node k0 v0 l r1

/-- Walk `for replacement.right != nil` of `removeHelper`, returning the key and
value of the rightmost node reachable from the seed `(k, v)` via `t`. -/
def rightmostKV (k : K) (v : V) : Tree K V → K × V
  | .nil => (k, v)
  | .node k1 v1 _ r => rightmostKV k1 v1 r

/-- Effect of `replacementParent.right = nil` on the left subtree of the removed
node, in the case where the walk took at least one step: the subtree rooted at
the rightmost node (including that node's own left subtree, which the Go code
orphans) is detached. -/
def cutRightmost : Tree K V → Tree K V
  | .nil => .nil
  | .node k v l r =>
    match r with
    | .nil => .nil
    | .node _ _ _ rr =>
      match rr with
      | .nil => .node k v l .nil
      | .node .. => .node k v l (cutRightmost r)

/-- Model of `BST.removeHelper`: the subtree that replaces the removed node
`n`.  In the two-children case the rightmost node of `n.left` is promoted:
`replacement.right = n.right`, `replacement.left = n.left` unless the
replacement is `n.left` itself, and `replacementParent.right = nil`. -/
def removeHelper : Tree K V → Tree K V
  | .nil => .nil
  | .node _ _ l r =>
    match l, r with
    | .nil, .nil => .nil
    | .nil, .node rk rv rl rr => .node rk rv rl rr
    | .node lk lv ll lr, .nil => .node lk lv ll lr
    | .node lk lv ll lr, .node rk rv rl rr =>
      match lr with
      | .nil => .node lk lv ll (.node rk rv rl rr)
      | .node lrk lrv _ lrr =>
        let p := rightmostKV lrk lrv lrr
        .node p.1 p.2 (cutRightmost (.node lk lv ll lr)) (.node rk rv rl rr)

/-- Model of the cursor loop of `BST.Remove`: the parent of the target is
located during the descent (the root is the special `comparison == 0` case),
and the matched child is replaced by `removeHelper`'s result.  `none` is the
break-and-error path. -/
def removeGo (cmp : K → K → Int) (k : K) : Tree K V → Option (V × Tree K V)
  | .nil => none
  | .node k0 v0 l r =>
    if cmp k k0 = -1 then
      match l with
      | .nil => none
      | .node lk lv ll lr =>
        if cmp k lk = 0 then some (lv, .node k0 v0 (removeHelper (.node lk lv ll lr)) r)
        else (removeGo cmp k l).map fun p => (p.1, .node k0 v0 p.2 r)
    else if cmp k k0 = 0 then
      some (v0, removeHelper (.node k0 v0 l r))
    else
      match r with
      | .nil => none
      | .node rk rv rl rr =>
        if cmp k rk = 0 then some (rv, .node k0 v0 l (removeHelper (.node rk rv rl rr)))
        else (removeGo cmp k r).map fun p => (p.1, .node k0 v0 l p.2)

/-- The `BST` struct: root node and the cached `size` field (a Go `int`). -/
structure BSTState (K V : Type) where
  root : Tree K V
  size : Int
deriving DecidableEq, Repr

/-- Model of `bst.NewEmpty`. -/
def bstEmpty (K V : Type) : BSTState K V := { root := .nil, size := 0 }

/-- Model of `BST.Insert`: the `size == 0` check selects root insertion,
otherwise the cursor walk runs; `size` is always incremented. -/
def bstInsert (cmp : K → K → Int) (st : BSTState K V) (k : K) (v : V) :
    Option (BSTState K V) :=
  if st.size = 0 then some { root := single k v, size := st.size + 1 }
  else (insertWalk cmp k v st.root).map fun t => { root := t, size := st.size + 1 }

/-- Model of `BST.Remove`: on success `removeHelper` has decremented `size`
exactly once; on the error path the tree and size are untouched. -/
def bstRemove (cmp : K → K → Int) (st : BSTState K V) (k : K) :
    Option V × BSTState K V :=
  match removeGo cmp k st.root with
  | none => (none, st)
  | some (v, t) => (some v, { root := t, size := st.size - 1 })

/-- Model of `BST.Clear`. -/
def bstClear (K V : Type) : BSTState K V := { root := .nil, size := 0 }

/-! ### Traversals

The Go traversals are iterative with explicit stacks/queues; they are embedded
as tail-recursive loops over lists of subtrees, with the total node count as
the termination measure. -/

/-- Right child of a node (termination measure helper for the in-order loop). -/
def rightOf : Tree K V → Tree K V
  | .nil => .nil
  | .node _ _ _ r => r

/-- Termination measure of the in-order loop: pending work in the stack. -/
def stackMeasure (s : List (Tree K V)) : Nat :=
  s.foldr (fun t acc => 1 + 2 * Tree.tsize (rightOf t) + acc) 0

theorem stackMeasure_cons (t : Tree K V) (s : List (Tree K V)) :
    stackMeasure (t :: s) = 1 + 2 * Tree.tsize (rightOf t) + stackMeasure s := rfl

/-- Model of the loop of `BST.InOrderTraversal`: push the cursor and go left
while the cursor is non-nil, otherwise pop, record the key and go right. -/
def inorderLoop : Tree K V → List (Tree K V) → List K → List K
  | .node k v l r, stack, acc => inorderLoop l (.node k v l r :: stack) acc
  | .nil, [], acc => acc
  | .nil, t :: stack, acc =>
    match t with
    | .nil => inorderLoop .nil stack acc
    | .node k _ _ r => inorderLoop r stack (acc ++ [k])
termination_by t stack _ => 2 * Tree.tsize t + stackMeasure stack
decreasing_by
  · simp only [stackMeasure_cons, rightOf, Tree.tsize]; omega
  · simp only [stackMeasure_cons, rightOf, Tree.tsize]; omega
  · simp only [stackMeasure_cons, rightOf, Tree.tsize]; omega

/-- Model of `BST.InOrderTraversal`. -/
def inOrderTraversal (t : Tree K V) : List K := inorderLoop t [] []

/-- Termination measure for the stack/queue loops of the other traversals. -/
def listMeasure (s : List (Tree K V)) : Nat :=
  s.foldr (fun t acc => 1 + 2 * Tree.tsize t + acc) 0

theorem listMeasure_cons (t : Tree K V) (s : List (Tree K V)) :
    listMeasure (t :: s) = 1 + 2 * Tree.tsize t + listMeasure s := rfl

theorem listMeasure_append (a b : List (Tree K V)) :
    listMeasure (a ++ b) = listMeasure a + listMeasure b := by
  induction a with
  | nil => simp [listMeasure]
  | cons t s ih => simp [listMeasure_cons, ih]; omega

/-- Conditional push of `if child != nil { stack = append-as-push }`. -/
def consNonNil (t : Tree K V) (s : List (Tree K V)) : List (Tree K V) :=
  match t with
  | .nil => s
  | .node .. => t :: s

theorem listMeasure_nil : listMeasure ([] : List (Tree K V)) = 0 := rfl

theorem listMeasure_consNonNil (t : Tree K V) (s : List (Tree K V)) :
    listMeasure (consNonNil t s) ≤ 1 + 2 * Tree.tsize t + listMeasure s := by
  cases t
  · simp only [consNonNil]; omega
  · simp only [consNonNil, listMeasure_cons]; omega

/-- Model of the loop of `BST.PreOrderTraversal`: pop a node, record its key,
push its right child then its left child (non-nil children only). -/
def preorderLoop : List (Tree K V) → List K → List K
  | [], acc => acc
  | t :: stack, acc =>
    match t with
    | .nil => preorderLoop stack acc
    | .node k _ l r => preorderLoop (consNonNil l (consNonNil r stack)) (acc ++ [k])
termination_by stack _ => listMeasure stack
decreasing_by
  · simp only [listMeasure_cons, Tree.tsize]; omega
  · rename_i l r
    have h1 := listMeasure_consNonNil l (consNonNil r stack)
    have h2 := listMeasure_consNonNil r stack
    simp only [listMeasure_cons, Tree.tsize]
    omega

/-- Model of `BST.PreOrderTraversal`. -/
def preOrderTraversal (t : Tree K V) : List K :=
  match t with
  | .nil => []
  | .node .. => preorderLoop [t] []

/-- Model of the first loop of `BST.PostOrderTraversal`: pop from `s1`, append
to `s2`, push left then right child onto `s1`. -/
def postorderLoop : List (Tree K V) → List (Tree K V) → List (Tree K V)
  | [], s2 => s2
  | t :: s1, s2 =>
    match t with
    | .nil => postorderLoop s1 s2
    | .node _ _ l r => postorderLoop (consNonNil r (consNonNil l s1)) (s2 ++ [t])
termination_by s1 _ => listMeasure s1
decreasing_by
  · simp only [listMeasure_cons, Tree.tsize]; omega
  · rename_i l r
    have h1 := listMeasure_consNonNil r (consNonNil l s1)
    have h2 := listMeasure_consNonNil l s1
    simp only [listMeasure_cons, Tree.tsize]
    omega

/-- Model of the second loop of `BST.PostOrderTraversal`: pop `s2` from the
end, recording keys (walking the reversed list). -/
def postDrain : List (Tree K V) → List K → List K
  | [], acc => acc
  | t :: rest, acc =>
    match t with
    | .nil => postDrain rest acc
    | .node k _ _ _ => postDrain rest (acc ++ [k])

/-- Model of `BST.PostOrderTraversal`. -/
def postOrderTraversal (t : Tree K V) : List K :=
  match t with
  | .nil => []
  | .node .. => postDrain (postorderLoop [t] []).reverse []

/-- Termination measure of the `Height` BFS queue. -/
def levelMeasure (s : List (Tree K V × Nat)) : Nat :=
  s.foldr (fun t acc => 1 + 2 * Tree.tsize t.1 + acc) 0

theorem levelMeasure_cons (t : Tree K V × Nat) (s : List (Tree K V × Nat)) :
    levelMeasure (t :: s) = 1 + 2 * Tree.tsize t.1 + levelMeasure s := rfl

theorem levelMeasure_append (a b : List (Tree K V × Nat)) :
    levelMeasure (a ++ b) = levelMeasure a + levelMeasure b := by
  induction a with
  | nil => simp [levelMeasure]
  | cons t s ih => simp [levelMeasure_cons, ih]; omega

/-- Conditional enqueue of a non-nil child one level deeper. -/
def snocNonNil (q : List (Tree K V × Nat)) (t : Tree K V) (lvl : Nat) :
    List (Tree K V × Nat) :=
  match t with
  | .nil => q
  | .node .. => q ++ [(t, lvl)]

theorem levelMeasure_nil : levelMeasure ([] : List (Tree K V × Nat)) = 0 := rfl

theorem levelMeasure_snocNonNil (q : List (Tree K V × Nat)) (t : Tree K V) (lvl : Nat) :
    levelMeasure (snocNonNil q t lvl) ≤ levelMeasure q + 1 + 2 * Tree.tsize t := by
  cases t
  · simp only [snocNonNil]; omega
  · simp only [snocNonNil, levelMeasure_append, levelMeasure_cons, levelMeasure_nil]; omega

/-- Model of the BFS loop of `BST.Height`: dequeue a node-level pair, record its
level, enqueue the non-nil children one level deeper. -/
def heightLoop : List (Tree K V × Nat) → Nat → Nat
  | [], h => h
  | (t, lvl) :: queue, h =>
    match t with
    | .nil => heightLoop queue h
    | .node _ _ l r => heightLoop (snocNonNil (snocNonNil queue l (lvl + 1)) r (lvl + 1)) lvl
termination_by queue _ => levelMeasure queue
decreasing_by
  · simp only [levelMeasure_cons, Tree.tsize]; omega
  · rename_i l r
    have h1 := levelMeasure_snocNonNil (snocNonNil queue l (lvl + 1)) r (lvl + 1)
    have h2 := levelMeasure_snocNonNil queue l (lvl + 1)
    simp only [levelMeasure_cons, Tree.tsize]
    omega

/-- Model of `BST.Height` (a Go `int`): -1 for an empty tree. -/
def bstHeight (t : Tree K V) : Int :=
  match t with
  | .nil => -1
  | .node .. => (heightLoop [(t, 0)] 0 : Nat)

/-- Leftmost key reachable from the cursor (walk of `FindMin`). -/
def leftmostKey : Tree K V → Option K
  | .nil => none
  | .node k _ l _ => match l with | .nil => some k | .node .. => leftmostKey l

/-- Rightmost key reachable from the cursor (walk of `FindMax`). -/
def rightmostKey : Tree K V → Option K
  | .nil => none
  | .node k _ _ r => match r with | .nil => some k | .node .. => rightmostKey r

/-- Model of `BST.FindMin`: error on `size == 0`, otherwise the leftmost key. -/
def bstFindMin (st : BSTState K V) : Option K :=
  if st.size = 0 then none else leftmostKey st.root

/-- Model of `BST.FindMax`. -/
def bstFindMax (st : BSTState K V) : Option K :=
  if st.size = 0 then none else rightmostKey st.root

/-! ### Operation sequences on a BST -/

/-- An operation issued against a BST. -/
inductive BOp (K V : Type) where
  | ins (k : K) (v : V)
  | del (k : K)
  | clr
deriving DecidableEq, Repr

/-- Run one operation; the returned `Nat` is 1 for a successful removal.
`none` propagates the nil-dereference of `bstInsert`. -/
def bstStep (cmp : K → K → Int) (st : BSTState K V) :
    BOp K V → Option (BSTState K V × Nat)
  | .ins k v => (bstInsert cmp st k v).map fun st1 => (st1, 0)
  | .del k =>
    match bstRemove cmp st k with
    | (none, st1) => some (st1, 0)
    | (some _, st1) => some (st1, 1)
  | .clr => some (bstClear K V, 0)

/-- Run a sequence of operations, accumulating the successful-removal count. -/
def bstExec (cmp : K → K → Int) :
    BSTState K V → List (BOp K V) → Option (BSTState K V × Nat)
  | st, [] => some (st, 0)
  | st, op :: ops =>
    match bstStep cmp st op with
    | none => none
    | some (st1, c) => (bstExec cmp st1 ops).map fun p => (p.1, c + p.2)

/-- Number of `ins` operations in a sequence. -/
def insCount : List (BOp K V) → Nat
  | [] => 0
  | .ins _ _ :: ops => 1 + insCount ops
  | _ :: ops => insCount ops

/-- Recursive in-order key list (specification form of the traversal; the
iterative loop is proved equal to it below). -/
def keyList : Tree K V → List K
  | .nil => []
  | .node k _ l r => keyList l ++ k :: keyList r

/-! ### Claims C1 and C4: the two-children removal loses the promoted node's
left subtree

Inserting keys 10, 5, 15, 8, 7 builds the tree `10(5(·,8(7,·)),15)`.  The
rightmost descendant of `10.left` is the node 8, whose left child is 7.
`Remove(10)` promotes 8 but overwrites `8.left` with the whole old left
subtree after the walk has detached 8, so key 7 is orphaned, while `size` is
decremented only once. -/

/-- The state reached by inserting (10,100), (5,50), (15,150), (8,80), (7,70)
into an empty BST with the integer comparator. -/
def bugTree : BSTState Int Int :=
  { root := .node 10 100
      (.node 5 50 .nil (.node 8 80 (.node 7 70 .nil .nil) .nil))
      (.node 15 150 .nil .nil),
    size := 5 }

theorem bugTree_exec :
    bstExec comparatorInt (bstEmpty Int Int)
      [.ins 10 100, .ins 5 50, .ins 15 150, .ins 8 80, .ins 7 70] =
      some (bugTree, 0) := by rfl

/-- Claim C1 (code bug): removing key 10, which sits at a node with two
children whose left subtree's rightmost descendant (key 8) has a left subtree
(key 7), does return the removed node's value 100, but the in-order traversal
afterwards is [5, 8, 15]: key 7 has disappeared instead of only one occurrence
of 10, contradicting the claimed multiset preservation. -/
theorem bst_remove_two_children_loses_subtree_c1 :
    inOrderTraversal bugTree.root = [5, 7, 8, 10, 15] ∧
    (bstRemove comparatorInt bugTree 10).1 = some 100 ∧
    inOrderTraversal (bstRemove comparatorInt bugTree 10).2.root = [5, 8, 15] := by
  refine ⟨?_, by rfl, ?_⟩
  · show inorderLoop bugTree.root [] [] = [5, 7, 8, 10, 15]
    simp [bugTree, inorderLoop]
  · show inOrderTraversal
      (.node 8 80 (.node 5 50 .nil .nil) (.node 15 150 .nil .nil)) = [5, 8, 15]
    simp [inOrderTraversal, inorderLoop]

/-- Claim C4 (code bug): after the same insertions and the removal of key 10,
the cached `size` field reports 4 while only 3 nodes are reachable from the
root, so `Size()` no longer equals the length of `InOrderTraversal()`. -/
theorem bst_size_disagrees_with_reachable_c4 :
    (bstRemove comparatorInt bugTree 10).2.size = 4 ∧
    (inOrderTraversal (bstRemove comparatorInt bugTree 10).2.root).length = 3 := by
  refine ⟨by rfl, ?_⟩
  show (inOrderTraversal
    ((.node 8 80 (.node 5 50 .nil .nil) (.node 15 150 .nil .nil) : Tree Int Int))).length = 3
  simp [inOrderTraversal, inorderLoop]

/-- The state reached by the C6 scenario insertions. -/
def c6state : BSTState Int String :=
  { root := .node 4 ""
      (.node 2 "" (.node 1 "" .nil .nil) (.node 3 "" .nil .nil))
      (.node 8 "" (.node 6 "" .nil .nil) .nil),
    size := 6 }

theorem c6state_exec :
    bstExec comparatorInt (bstEmpty Int String)
      [.ins 4 "", .ins 8 "", .ins 2 "", .ins 6 "", .ins 3 "", .ins 1 ""] =
      some (c6state, 0) := by rfl

/-- Claim C6 (confirmed): the concrete scenario of the spec.  Inserting keys
4, 8, 2, 6, 3, 1 with empty-string values yields the stated pre-order and
post-order traversals, height 2, minimum 1 and maximum 8; the height of an
empty BST is -1. -/
theorem bst_concrete_scenario_c6 :
    preOrderTraversal c6state.root = [4, 2, 1, 3, 8, 6] ∧
    postOrderTraversal c6state.root = [1, 3, 2, 6, 8, 4] ∧
    bstHeight c6state.root = 2 ∧
    bstFindMin c6state = some 1 ∧
    bstFindMax c6state = some 8 ∧
    bstHeight (Tree.nil : Tree Int String) = -1 := by
  refine ⟨?_, ?_, ?_, by rfl, by rfl, by rfl⟩
  · simp [c6state, preOrderTraversal, preorderLoop, consNonNil]
  · simp [c6state, postOrderTraversal, postorderLoop, postDrain, consNonNil]
  · simp [c6state, bstHeight, heightLoop, snocNonNil]

/-! ### Claim C5: size accounting -/

/-- Size contribution of one operation: inserts add one node. -/
def insIndicator : BOp K V → Int
  | .ins _ _ => 1
  | _ => 0

theorem bstStep_size (cmp : K → K → Int) (st st1 : BSTState K V) (op : BOp K V)
    (c : Nat) (hop : op ≠ .clr) (h : bstStep cmp st op = some (st1, c)) :
    st1.size = st.size + insIndicator op - c := by
  cases op with
  | ins k v =>
    simp only [bstStep, bstInsert, insIndicator] at h ⊢
    by_cases h0 : st.size = 0
    · simp [h0] at h
      obtain ⟨h1, h2⟩ := h
      simp [← h1, ← h2, h0]
    · simp [h0] at h
      obtain ⟨t, _, h1, h2⟩ := h
      simp [← h1, ← h2]
  | del k =>
    simp only [bstStep, bstRemove, insIndicator] at h ⊢
    cases hr : removeGo cmp k st.root with
    | none => rw [hr] at h; simp at h; obtain ⟨h1, h2⟩ := h; simp [← h1, ← h2]
    | some p =>
      rw [hr] at h
      obtain ⟨v, t⟩ := p
      simp at h
      obtain ⟨h1, h2⟩ := h
      simp [← h1, ← h2]
  | clr => exact absurd rfl hop

theorem bstExec_size (cmp : K → K → Int) (ops : List (BOp K V)) :
    ∀ (st : BSTState K V) (p : BSTState K V × Nat), BOp.clr ∉ ops →
      bstExec cmp st ops = some p →
      p.1.size = st.size + (insCount ops : Int) - (p.2 : Int) := by
  induction ops with
  | nil =>
    intro st p _ h
    simp [bstExec] at h
    simp [← h, insCount]
  | cons op ops ih =>
    intro st p hclr h
    unfold bstExec at h
    cases hs : bstStep cmp st op with
    | none => rw [hs] at h; simp at h
    | some q =>
      obtain ⟨st1, c⟩ := q
      rw [hs] at h
      simp only [Option.map_eq_map] at h
      cases he : bstExec cmp st1 ops with
      | none => rw [he] at h; simp at h
      | some w =>
        rw [he] at h
        simp at h
        have hop : op ≠ BOp.clr := fun hh => hclr (hh ▸ List.mem_cons_self op ops)
        have h1 := bstStep_size cmp st st1 op c hop hs
        have h2 := ih st1 w (fun hm => hclr (List.mem_cons_of_mem op hm)) he
        rw [← h]
        cases op with
        | ins k v => simp [insCount, insIndicator] at *; omega
        | del k => simp [insCount, insIndicator] at *; omega
        | clr => exact absurd rfl hop

/-- A removal whose key matches no key of the tree takes the break-and-error
path. -/
theorem removeGo_absent (cmp : K → K → Int) (k : K) (t : Tree K V)
    (habs : ∀ x ∈ keyList t, cmp k x ≠ 0) : removeGo cmp k t = none := by
  induction t with
  | nil => rfl
  | node k0 v0 l r ihl ihr =>
    have hk0 : cmp k k0 ≠ 0 := habs k0 (by simp [keyList])
    have hl : ∀ x ∈ keyList l, cmp k x ≠ 0 := fun x hx => habs x (by simp [keyList, hx])
    have hr : ∀ x ∈ keyList r, cmp k x ≠ 0 := fun x hx => habs x (by simp [keyList, hx])
    unfold removeGo
    by_cases hc : cmp k k0 = -1
    · simp only [hc, if_pos rfl]
      cases l with
      | nil => rfl
      | node lk lv ll lr =>
        have hlk : cmp k lk ≠ 0 := hl lk (by simp [keyList])
        simp only [hlk, if_neg, ite_false]
        rw [ihl hl]
        rfl
    · simp only [if_neg hc, if_neg hk0]
      cases r with
      | nil => rfl
      | node rk rv rl rr =>
        have hrk : cmp k rk ≠ 0 := hr rk (by simp [keyList])
        simp only [hrk, if_neg, ite_false]
        rw [ihr hr]
        rfl

/-- Claim C5 (confirmed): for any completed operation sequence from an empty
BST, the cached size equals the number of inserts minus the number of
successful removals (the helper decrements exactly once per success), and a
removal on a key matching nothing in the tree returns the error and leaves the
state untouched. -/
theorem bst_size_invariant_c5 (cmp : K → K → Int) (ops : List (BOp K V))
    (p : BSTState K V × Nat) (st1 : BSTState K V) (k : K)
    (hclr : BOp.clr ∉ ops)
    (hex : bstExec cmp (bstEmpty K V) ops = some p)
    (habs : ∀ x ∈ keyList st1.root, cmp k x ≠ 0) :
    p.1.size = (insCount ops : Int) - (p.2 : Int) ∧
    bstRemove cmp st1 k = (none, st1) := by
  constructor
  · have h := bstExec_size cmp ops (bstEmpty K V) p hclr hex
    simpa [bstEmpty] using h
  · unfold bstRemove
    rw [removeGo_absent cmp k st1.root habs]

/-! ### Claim C3: in-order traversal of any insert sequence is sorted -/

/-- Recursive form of the insert walk on a non-empty tree (and of the root
insertion on an empty one); proved below to agree with `insertWalk`. -/
def insTree (cmp : K → K → Int) (k : K) (v : V) : Tree K V → Tree K V
  | .nil => single k v
  | .node k0 v0 l r =>
    if cmp k k0 = -1 then .node k0 v0 (insTree cmp k v l) r
    else .node k0 v0 l (insTree cmp k v r)

theorem insertWalk_eq_insTree (cmp : K → K → Int) (k : K) (v : V) :
    ∀ t : Tree K V, t ≠ .nil → insertWalk cmp k v t = some (insTree cmp k v t) := by
  intro t
  induction t with
  | nil => intro h; exact absurd rfl h
  | node k0 v0 l r ihl ihr =>
    intro _
    unfold insertWalk insTree
    by_cases hc : cmp k k0 = -1
    · simp only [hc, if_pos rfl]
      cases l with
      | nil => simp [insTree, single]
      | node lk lv ll lr => rw [ihl (by simp)]; rfl
    · simp only [if_neg hc]
      cases r with
      | nil => simp [insTree, single]
      | node rk rv rl rr => rw [ihr (by simp)]; rfl

theorem keyList_insTree_perm (cmp : K → K → Int) (k : K) (v : V) :
    ∀ t : Tree K V, (keyList (insTree cmp k v t)).Perm (k :: keyList t) := by
  intro t
  induction t with
  | nil => simp [insTree, single, keyList]
  | node k0 v0 l r ihl ihr =>
    unfold insTree
    by_cases hc : cmp k k0 = -1
    · simp only [hc, if_pos rfl, keyList]
      simpa using ihl.append_right (k0 :: keyList r)
    · simp only [if_neg hc, keyList]
      have h1 : (keyList l ++ k0 :: keyList (insTree cmp k v r)).Perm
          (keyList l ++ k0 :: k :: keyList r) := (ihr.cons k0).append_left (keyList l)
      have h2 := @List.perm_middle K k (keyList l ++ [k0]) (keyList r)
      simp only [List.append_assoc, List.singleton_append] at h2
      exact h1.trans h2

/-- Search-tree invariant maintained by insertion: every key of a left subtree
compares -1 against the node key, every key of a right subtree does not. -/
def SearchInv (cmp : K → K → Int) : Tree K V → Prop
  | .nil => True
  | .node k0 _ l r => SearchInv cmp l ∧ SearchInv cmp r ∧
      (∀ x ∈ keyList l, cmp x k0 = -1) ∧ (∀ x ∈ keyList r, cmp x k0 ≠ -1)

theorem searchInv_insTree (cmp : K → K → Int) (k : K) (v : V) :
    ∀ t : Tree K V, SearchInv cmp t → SearchInv cmp (insTree cmp k v t) := by
  intro t
  induction t with
  | nil => intro _; simp [insTree, single, SearchInv, keyList]
  | node k0 v0 l r ihl ihr =>
    intro hinv
    obtain ⟨hl, hr, hlb, hrb⟩ := hinv
    unfold insTree
    by_cases hc : cmp k k0 = -1
    · simp only [hc, if_pos rfl, SearchInv]
      refine ⟨ihl hl, hr, ?_, hrb⟩
      intro x hx
      rcases List.mem_cons.mp ((keyList_insTree_perm cmp k v l).mem_iff.1 hx) with h | h
      · exact h ▸ hc
      · exact hlb x h
    · simp only [if_neg hc, SearchInv]
      refine ⟨hl, ihr hr, hlb, ?_⟩
      intro x hx
      rcases List.mem_cons.mp ((keyList_insTree_perm cmp k v r).mem_iff.1 hx) with h | h
      · exact h ▸ hc
      · exact hrb x h

/-- Keys of a search-invariant tree are non-decreasing: adjacent keys of the
in-order list never compare +1. -/
theorem searchInv_chain (cmp : K → K → Int) (hc : IsCmp cmp) :
    ∀ t : Tree K V, SearchInv cmp t →
      List.Chain' (fun a b => cmp a b ≠ 1) (keyList t) := by
  intro t
  induction t with
  | nil => intro _; simp [keyList]
  | node k0 v0 l r ihl ihr =>
    intro hinv
    obtain ⟨hl, hr, hlb, hrb⟩ := hinv
    unfold keyList
    rw [List.chain'_append]
    refine ⟨ihl hl, ?_, ?_⟩
    · rw [List.chain'_cons']
      refine ⟨?_, ihr hr⟩
      intro y hy
      have hmem : y ∈ keyList r := List.mem_of_mem_head? hy
      intro h01
      have h1 : cmp y k0 = -1 := by
        have := hc.antisym k0 y
        omega
      exact hrb y hmem h1
    · intro x hx y hy
      have hmem : x ∈ keyList l := List.mem_of_mem_getLast? hx
      have hy0 : k0 = y := by simpa using hy
      subst hy0
      have := hlb x hmem
      omega

/-- The iterative in-order loop computes the recursive in-order key list:
pending work in the stack contributes each saved node's key and right
subtree. -/
def stackKeys : List (Tree K V) → List K
  | [] => []
  | t :: s => (match t with | .nil => [] | .node k _ _ r => k :: keyList r) ++ stackKeys s

theorem inorderLoop_eq :
    ∀ (t : Tree K V) (stack : List (Tree K V)) (acc : List K),
      inorderLoop t stack acc = acc ++ keyList t ++ stackKeys stack := by
  intro t stack acc
  induction t, stack, acc using inorderLoop.induct with
  | case1 k v l r stack acc ih =>
    rw [inorderLoop, ih]
    simp [keyList, stackKeys]
  | case2 acc => simp [inorderLoop, keyList, stackKeys]
  | case3 stack acc ih => rw [inorderLoop, ih]; simp [keyList, stackKeys]
  | case4 stack acc k v l r ih => rw [inorderLoop, ih]; simp [keyList, stackKeys]

theorem inOrderTraversal_eq_keyList (t : Tree K V) :
    inOrderTraversal t = keyList t := by
  rw [inOrderTraversal, inorderLoop_eq]
  simp [stackKeys]

/-- Number of nodes agrees with the key list length. -/
theorem keyList_length (t : Tree K V) : (keyList t).length = Tree.tsize t := by
  induction t with
  | nil => simp [keyList, Tree.tsize]
  | node k v l r ihl ihr => simp [keyList, Tree.tsize, ihl, ihr]; omega

/-- On a size-consistent state, `Insert` never dereferences nil and performs
the recursive insertion. -/
theorem bstInsert_consistent (cmp : K → K → Int) (st : BSTState K V) (k : K) (v : V)
    (hsz : st.size = (Tree.tsize st.root : Int)) :
    bstInsert cmp st k v =
      some { root := insTree cmp k v st.root, size := st.size + 1 } := by
  unfold bstInsert
  by_cases h0 : st.size = 0
  · have : Tree.tsize st.root = 0 := by omega
    have hnil : st.root = .nil := by
      cases hroot : st.root with
      | nil => rfl
      | node k0 v0 l r => rw [hroot] at this; simp [Tree.tsize] at this
    rw [if_pos h0, hnil]
    rfl
  · have hne : st.root ≠ .nil := by
      intro hnil
      rw [hnil] at hsz
      simp [Tree.tsize] at hsz
      omega
    rw [if_neg h0, insertWalk_eq_insTree cmp k v st.root hne]
    rfl

theorem insTree_tsize (cmp : K → K → Int) (k : K) (v : V) (t : Tree K V) :
    Tree.tsize (insTree cmp k v t) = Tree.tsize t + 1 := by
  have h := (keyList_insTree_perm cmp k v t).length_eq
  simp [keyList_length] at h
  omega

/-- Executing a pure insertion sequence from a size-consistent state succeeds
and folds the recursive insertion over the tree. -/
theorem bstExec_inserts (cmp : K → K → Int) (pairs : List (K × V)) :
    ∀ st : BSTState K V, st.size = (Tree.tsize st.root : Int) →
      bstExec cmp st (pairs.map fun kv => BOp.ins kv.1 kv.2) =
        some ({ root := pairs.foldl (fun t kv => insTree cmp kv.1 kv.2 t) st.root,
                size := st.size + pairs.length }, 0) := by
  induction pairs with
  | nil => intro st _; simp [bstExec]
  | cons kv pairs ih =>
    intro st hsz
    obtain ⟨k, v⟩ := kv
    simp only [List.map_cons, bstExec, bstStep]
    rw [bstInsert_consistent cmp st k v hsz]
    simp only [Option.map_some']
    rw [ih { root := insTree cmp k v st.root, size := st.size + 1 }
      (by simp [insTree_tsize, hsz])]
    simp
    omega

theorem foldl_insTree_searchInv (cmp : K → K → Int) (pairs : List (K × V)) :
    ∀ t : Tree K V, SearchInv cmp t →
      SearchInv cmp (pairs.foldl (fun t kv => insTree cmp kv.1 kv.2 t) t) := by
  induction pairs with
  | nil => intro t h; simpa using h
  | cons kv pairs ih =>
    intro t h
    simp only [List.foldl_cons]
    exact ih _ (searchInv_insTree cmp kv.1 kv.2 t h)

theorem foldl_insTree_perm (cmp : K → K → Int) (pairs : List (K × V)) :
    ∀ t : Tree K V,
      (keyList (pairs.foldl (fun t kv => insTree cmp kv.1 kv.2 t) t)).Perm
        (pairs.map Prod.fst ++ keyList t) := by
  induction pairs with
  | nil => intro t; simp
  | cons kv pairs ih =>
    intro t
    simp only [List.foldl_cons, List.map_cons]
    have h1 := ih (insTree cmp kv.1 kv.2 t)
    have h2 : (pairs.map Prod.fst ++ keyList (insTree cmp kv.1 kv.2 t)).Perm
        (pairs.map Prod.fst ++ kv.1 :: keyList t) :=
      (keyList_insTree_perm cmp kv.1 kv.2 t).append_left _
    have h3 := @List.perm_middle K kv.1 (pairs.map Prod.fst) (keyList t)
    exact (h1.trans h2).trans h3

/-- Claim C3 (confirmed): for any comparator realizing a total order and any
sequence of insertions into an empty BST, the execution completes and the
in-order traversal lists all inserted keys (with multiplicity) in
non-decreasing comparator order. -/
theorem bst_inorder_sorted_c3 (cmp : K → K → Int) (hc : IsCmp cmp)
    (pairs : List (K × V)) (p : BSTState K V × Nat)
    (hex : bstExec cmp (bstEmpty K V) (pairs.map fun kv => BOp.ins kv.1 kv.2) = some p) :
    (inOrderTraversal p.1.root).Perm (pairs.map Prod.fst) ∧
    List.Chain' (fun a b => cmp a b ≠ 1) (inOrderTraversal p.1.root) := by
  rw [bstExec_inserts cmp pairs (bstEmpty K V) (by simp [bstEmpty, Tree.tsize])] at hex
  have hp : p.1.root = pairs.foldl (fun t kv => insTree cmp kv.1 kv.2 t) (bstEmpty K V).root := by
    rw [← Option.some_inj.mp hex]
  rw [inOrderTraversal_eq_keyList, hp]
  constructor
  · simpa [bstEmpty, keyList] using foldl_insTree_perm cmp pairs .nil
  · exact searchInv_chain cmp hc _
      (foldl_insTree_searchInv cmp pairs .nil (by simp [SearchInv]))

/-- Witness for claim C3: inserting (2,20), (1,10), (2,25) with the integer
comparator yields in-order keys that are a permutation of [2, 1, 2] and
non-decreasing. -/
theorem bst_inorder_sorted_c3_witness :
    (inOrderTraversal
        (({ root := .node 2 20 (.node 1 10 .nil .nil) (.node 2 25 .nil .nil),
            size := 3 } : BSTState Int Int)).root).Perm [2, 1, 2] ∧
    List.Chain' (fun a b => comparatorInt a b ≠ 1)
      (inOrderTraversal
        (({ root := .node 2 20 (.node 1 10 .nil .nil) (.node 2 25 .nil .nil),
            size := 3 } : BSTState Int Int)).root) := by
  have h := bst_inorder_sorted_c3 comparatorInt comparatorInt_isCmp
    ([(2, 20), (1, 10), (2, 25)] : List (Int × Int))
    (({ root := .node 2 20 (.node 1 10 .nil .nil) (.node 2 25 .nil .nil), size := 3 } :
      BSTState Int Int), 0)
    (by rfl)
  simpa using h

/-- Witness for claim C5 at a concrete input: two inserts and one successful
removal leave size 1 = 2 - 1, and removing the absent key 5 is a no-op. -/
theorem bst_size_invariant_c5_witness :
    BOp.clr ∉ ([.ins 1 10, .ins 2 20, .del 1] : List (BOp Int Int)) ∧
    ({ root := .node 2 20 .nil .nil, size := 1 } : BSTState Int Int).size =
        (insCount ([.ins 1 10, .ins 2 20, .del 1] : List (BOp Int Int)) : Int) - (1 : Nat) ∧
    bstRemove comparatorInt { root := .node 2 20 .nil .nil, size := 1 } 5 =
      (none, { root := .node 2 20 .nil .nil, size := 1 }) := by
  refine ⟨by decide, ?_⟩
  exact bst_size_invariant_c5 comparatorInt [.ins 1 10, .ins 2 20, .del 1]
    ({ root := .node 2 20 .nil .nil, size := 1 }, 1)
    { root := .node 2 20 .nil .nil, size := 1 } 5 (by decide) (by rfl) (by decide)

/-! ## Priority queue (binary heap)

The Go heap is a dense slice of `Node` structs indexed by machine integers;
it is embedded as a `List` with total indexing `gd` (the default value is
never read: every access of the Go code is in bounds when `size` equals the
slice length, which every operation preserves). -/

/-- Heap entry: a priority and a value (struct `Node[P, V]` of the priority
queue package). -/
structure PQNode (P V : Type) where
  p : P
  v : V
deriving DecidableEq, Repr, Inhabited

/-- Total list indexing standing for Go slice indexing. -/
def gd {α : Type} [Inhabited α] (l : List α) (i : Nat) : α := l.getD i default

/-- Go parallel assignment `heap[i], heap[j] = heap[j], heap[i]`. -/
def swap {α : Type} [Inhabited α] (l : List α) (i j : Nat) : List α :=
  (l.set i (gd l j)).set j (gd l i)

/-- The `PriorityQueue` struct: backing heap slice, its size (a non-negative
Go `int`), and the fixed orientation flag. -/
structure PQState (P V : Type) where
  heap : List (PQNode P V)
  size : Nat
  minHeap : Bool
deriving Repr

variable {P : Type} {W : Type} [Inhabited P] [Inhabited W]

/-- Model of `priority_queue.NewEmpty`. -/
def pqEmpty (P W : Type) (minHeap : Bool) : PQState P W :=
  { heap := [], size := 0, minHeap := minHeap }

/-- Model of `PriorityQueue.heapifyUp`: while the index is positive and the
entry violates heap order against its parent (per the `minHeap` direction),
swap with the parent and continue there. -/
def heapifyUp (cmp : P → P → Int) (mh : Bool) :
    List (PQNode P W) → Nat → List (PQNode P W)
  | heap, 0 => heap
  | heap, i + 1 =>
    let parentIndex := (i + 1 - 1) / 2
    if (if mh then cmp (gd heap (i + 1)).p (gd heap parentIndex).p ≥ 0
        else cmp (gd heap (i + 1)).p (gd heap parentIndex).p ≤ 0)
    then heap
    else heapifyUp cmp mh (swap heap (i + 1) parentIndex) parentIndex
termination_by _ i => i
decreasing_by omega

/-- Model of `PriorityQueue.Enqueue`: append, grow, sift up from the last
index. -/
def pqEnqueue (cmp : P → P → Int) (st : PQState P W) (p : P) (v : W) :
    PQState P W :=
  { st with
    heap := heapifyUp cmp st.minHeap (st.heap ++ [⟨p, v⟩]) (st.size + 1 - 1),
    size := st.size + 1 }

/-- Model of `PriorityQueue.Peek`. -/
def pqPeek (st : PQState P W) : Option (P × W) :=
  if st.size = 0 then none else some ((gd st.heap 0).p, (gd st.heap 0).v)

/-- Selection of `smallestOrLargest` in one iteration of
`PriorityQueue.heapifyDown`: the left child is checked against the current
index, then the right child against the provisional winner. -/
def smallestOrLargest (cmp : P → P → Int) (mh : Bool) (size : Nat)
    (heap : List (PQNode P W)) (index : Nat) : Nat :=
  let leftChild := 2 * index + 1
  let rightChild := 2 * index + 2
  let s1 : Nat :=
    if leftChild < size ∧
        (if mh then cmp (gd heap leftChild).p (gd heap index).p = -1
         else cmp (gd heap leftChild).p (gd heap index).p = 1)
    then leftChild else index
  if rightChild < size ∧
      (if mh then cmp (gd heap rightChild).p (gd heap s1).p = -1
       else cmp (gd heap rightChild).p (gd heap s1).p = 1)
  then rightChild else s1

theorem smallestOrLargest_cases (cmp : P → P → Int) (mh : Bool) (size : Nat)
    (heap : List (PQNode P W)) (index : Nat) :
    smallestOrLargest cmp mh size heap index = index ∨
      (index < smallestOrLargest cmp mh size heap index ∧
        smallestOrLargest cmp mh size heap index < size) := by
  simp only [smallestOrLargest]
  split_ifs <;> omega

/-- Model of `PriorityQueue.heapifyDown`: stop when no child should be above
the current entry, else swap with the selected child and continue there. -/
def heapifyDown (cmp : P → P → Int) (mh : Bool) (size : Nat)
    (heap : List (PQNode P W)) (index : Nat) : List (PQNode P W) :=
  if smallestOrLargest cmp mh size heap index = index then heap
  else heapifyDown cmp mh size
    (swap heap index (smallestOrLargest cmp mh size heap index))
    (smallestOrLargest cmp mh size heap index)
termination_by size - index
decreasing_by
  rcases smallestOrLargest_cases cmp mh size heap index with h | h
  · omega
  · omega

/-- Model of `PriorityQueue.ExtractTop`: error when empty; otherwise save the
root, move the last entry to the root, shrink, sift down from the root. -/
def pqExtractTop (cmp : P → P → Int) (st : PQState P W) :
    Option ((P × W) × PQState P W) :=
  if st.size = 0 then none
  else
    some (((gd st.heap 0).p, (gd st.heap 0).v),
      { st with
        heap := heapifyDown cmp st.minHeap (st.size - 1)
          ((st.heap.set 0 (gd st.heap (st.size - 1))).take (st.size - 1)) 0,
        size := st.size - 1 })

theorem pqExtractTop_size (cmp : P → P → Int) (st st1 : PQState P W)
    (pv : P × W) (h : pqExtractTop cmp st = some (pv, st1)) :
    st.size ≠ 0 ∧ st1.size = st.size - 1 := by
  unfold pqExtractTop at h
  by_cases h0 : st.size = 0
  · rw [if_pos h0] at h; exact absurd h (by simp)
  · rw [if_neg h0] at h
    refine ⟨h0, ?_⟩
    simp only [Option.some_inj, Prod.mk.injEq] at h
    obtain ⟨-, h2⟩ := h
    rw [← h2]

/-- Repeated `ExtractTop` until the queue reports empty. -/
def pqDrain (cmp : P → P → Int) (st : PQState P W) : List (P × W) :=
  match h : pqExtractTop cmp st with
  | none => []
  | some (pv, st1) => pv :: pqDrain cmp st1
termination_by st.size
decreasing_by
  have := pqExtractTop_size cmp st st1 pv h
  omega

/-- Model of `PriorityQueue.Clear`. -/
def pqClear (st : PQState P W) : PQState P W :=
  { st with heap := [], size := 0 }

/-! ### Heap correctness (claim C2)

`hle cmp mh x y` is the abstract "x may sit above y" relation of the chosen
orientation; both the sift-up stop test and the sift-down selection test of
the source are instances of it. -/

/-- Heap-priority order of the orientation: for a min-heap `x` is above `y`
when `cmp y x ≥ 0`, for a max-heap when `cmp y x ≤ 0`. -/
def hle (cmp : P → P → Int) (mh : Bool) (x y : P) : Prop :=
  if mh then cmp y x ≥ 0 else cmp y x ≤ 0

instance (cmp : P → P → Int) (mh : Bool) (x y : P) : Decidable (hle cmp mh x y) := by
  unfold hle
  infer_instance

theorem hle_refl (cmp : P → P → Int) (hc : IsCmp cmp) (mh : Bool) (x : P) :
    hle cmp mh x x := by
  have := hc.antisym x x
  unfold hle; split_ifs <;> omega

theorem hle_total (cmp : P → P → Int) (hc : IsCmp cmp) (mh : Bool) (x y : P) :
    hle cmp mh x y ∨ hle cmp mh y x := by
  have h1 := hc.antisym x y
  have h2 := hc.range x y
  unfold hle; split_ifs <;> omega

theorem hle_trans (cmp : P → P → Int) (hc : IsCmp cmp) (mh : Bool) (x y z : P) :
    hle cmp mh x y → hle cmp mh y z → hle cmp mh x z := by
  have hxy := hc.antisym x y
  have hyz := hc.antisym y z
  have hxz := hc.antisym x z
  have t1 := hc.le_trans z y x
  have t2 := hc.le_trans x y z
  unfold hle; split_ifs <;> omega

theorem hle_of_not_hle (cmp : P → P → Int) (hc : IsCmp cmp) (mh : Bool) (x y : P)
    (h : ¬ hle cmp mh x y) : hle cmp mh y x :=
  (hle_total cmp hc mh x y).resolve_left h

/-- The sift-down selection test picks a child exactly when the child may not
sit below the current entry. -/
theorem downTest_iff (cmp : P → P → Int) (hc : IsCmp cmp) (mh : Bool) (c a : P) :
    (if mh then cmp c a = -1 else cmp c a = 1) ↔ ¬ hle cmp mh a c := by
  have h1 := hc.range c a
  unfold hle; split_ifs <;> omega

/-- The sift-up stop test holds exactly when the parent may sit above the
entry. -/
theorem upTest_iff (cmp : P → P → Int) (mh : Bool) (c a : P) :
    (if mh then cmp c a ≥ 0 else cmp c a ≤ 0) ↔ hle cmp mh a c := by
  unfold hle; split_ifs <;> omega

/-! ### Indexing and swap lemmas -/

theorem gd_eq {α : Type} [Inhabited α] (l : List α) (i : Nat) (h : i < l.length) :
    gd l i = l[i] := by
  simp [gd, List.getD_eq_getElem?_getD, List.getElem?_eq_getElem h]

theorem gd_append_lt {α : Type} [Inhabited α] (l1 l2 : List α) (k : Nat)
    (h : k < l1.length) : gd (l1 ++ l2) k = gd l1 k := by
  simp [gd, List.getD_eq_getElem?_getD, List.getElem?_append_left h]

theorem gd_append_last {α : Type} [Inhabited α] (l : List α) (x : α) :
    gd (l ++ [x]) l.length = x := by
  simp [gd, List.getD_eq_getElem?_getD]

theorem gd_take {α : Type} [Inhabited α] (l : List α) (m k : Nat) (h : k < m) :
    gd (l.take m) k = gd l k := by
  simp [gd, List.getD_eq_getElem?_getD, List.getElem?_take, h]

theorem gd_set_ne {α : Type} [Inhabited α] (l : List α) (i k : Nat) (a : α)
    (h : k ≠ i) : gd (l.set i a) k = gd l k := by
  simp [gd, List.getD_eq_getElem?_getD, List.getElem?_set_ne (Ne.symm h)]

theorem gd_set_self {α : Type} [Inhabited α] (l : List α) (i : Nat) (a : α)
    (h : i < l.length) : gd (l.set i a) i = a := by
  simp [gd, List.getD_eq_getElem?_getD, List.getElem?_set_self, h]

theorem length_swap {α : Type} [Inhabited α] (l : List α) (i j : Nat) :
    (swap l i j).length = l.length := by
  simp [swap]

theorem gd_swap_fst {α : Type} [Inhabited α] (l : List α) (i j : Nat)
    (hi : i < l.length) (hj : j < l.length) : gd (swap l i j) i = gd l j := by
  unfold swap
  by_cases hij : i = j
  · subst hij; rw [gd_set_self _ _ _ (by simpa using hi)]
  · rw [gd_set_ne _ _ _ _ hij, gd_set_self _ _ _ hi]

theorem gd_swap_snd {α : Type} [Inhabited α] (l : List α) (i j : Nat)
    (hj : j < l.length) : gd (swap l i j) j = gd l i := by
  unfold swap
  rw [gd_set_self _ _ _ (by simpa using hj)]

theorem gd_swap_other {α : Type} [Inhabited α] (l : List α) (i j k : Nat)
    (hki : k ≠ i) (hkj : k ≠ j) : gd (swap l i j) k = gd l k := by
  unfold swap
  rw [gd_set_ne _ _ _ _ hkj, gd_set_ne _ _ _ _ hki]

theorem coe_set_add {α : Type} (l : List α) (i : Nat) (h : i < l.length) (a : α) :
    ((l.set i a : List α) : Multiset α) + {l[i]} = (l : Multiset α) + {a} := by
  rw [List.set_eq_take_cons_drop a h]
  conv_rhs => rw [← List.take_append_drop i l]
  rw [List.drop_eq_getElem_cons h]
  rw [show (List.take i l ++ a :: List.drop (i + 1) l : List α) =
    (List.take i l ++ [a]) ++ List.drop (i + 1) l by simp]
  rw [show (List.take i l ++ l[i] :: List.drop (i + 1) l : List α) =
    (List.take i l ++ [l[i]]) ++ List.drop (i + 1) l by simp]
  rw [← Multiset.coe_add, ← Multiset.coe_add, ← Multiset.coe_add, ← Multiset.coe_add]
  rw [Multiset.coe_singleton, Multiset.coe_singleton]
  abel

theorem coe_swap {α : Type} [Inhabited α] (l : List α) (i j : Nat)
    (hi : i < l.length) (hj : j < l.length) :
    ((swap l i j : List α) : Multiset α) = (l : Multiset α) := by
  unfold swap
  rw [gd_eq l i hi, gd_eq l j hj]
  have hj2 : j < (l.set i l[j]).length := by simpa using hj
  have m2 := coe_set_add (l.set i l[j]) j hj2 l[i]
  have m1 := coe_set_add l i hi l[j]
  have he : (l.set i l[j])[j] = l[j] := by
    by_cases hij : i = j
    · subst hij; simp [List.getElem_set_self]
    · rw [List.getElem_set_ne hij]
  rw [he] at m2
  exact add_right_cancel (m2.trans m1)

/-! ### Heap predicates -/

/-- Heap property: every non-root entry within bounds sits below its parent. -/
def IsHeap (cmp : P → P → Int) (mh : Bool) (l : List (PQNode P W)) : Prop :=
  ∀ j, j < l.length → 0 < j → hle cmp mh (gd l ((j - 1) / 2)).p (gd l j).p

/-- Sift-up invariant at hole `i`: all parent edges hold except possibly the
one into `i`, and the children of `i` already sit below the parent of `i`. -/
def UpInv (cmp : P → P → Int) (mh : Bool) (l : List (PQNode P W)) (i : Nat) : Prop :=
  (∀ j, j < l.length → 0 < j → j ≠ i →
    hle cmp mh (gd l ((j - 1) / 2)).p (gd l j).p) ∧
  (0 < i → ∀ j, j < l.length → (j - 1) / 2 = i →
    hle cmp mh (gd l ((i - 1) / 2)).p (gd l j).p)

/-- Sift-down invariant at hole `i`: all parent edges hold except possibly
those out of `i`, and the children of `i` already sit below the parent of
`i`. -/
def DownInv (cmp : P → P → Int) (mh : Bool) (l : List (PQNode P W)) (i : Nat) : Prop :=
  (∀ j, j < l.length → 0 < j → (j - 1) / 2 ≠ i →
    hle cmp mh (gd l ((j - 1) / 2)).p (gd l j).p) ∧
  (0 < i → ∀ j, j < l.length → (j - 1) / 2 = i →
    hle cmp mh (gd l ((i - 1) / 2)).p (gd l j).p)

/-- One sift-up swap step preserves the sift-up invariant, moving the hole to
the parent. -/
theorem upInv_step (cmp : P → P → Int) (hc : IsCmp cmp) (mh : Bool)
    (l : List (PQNode P W)) (i : Nat) (hn : i + 1 < l.length)
    (hinv : UpInv cmp mh l (i + 1))
    (hno : ¬ hle cmp mh (gd l ((i + 1 - 1) / 2)).p (gd l (i + 1)).p) :
    UpInv cmp mh (swap l (i + 1) ((i + 1 - 1) / 2)) ((i + 1 - 1) / 2) := by
  set n := i + 1 with hndef
  set pi := (n - 1) / 2 with hpidef
  have hpin : pi < n := by omega
  have hpil : pi < l.length := by omega
  have hswn : gd (swap l n pi) n = gd l pi := gd_swap_fst l n pi hn hpil
  have hswpi : gd (swap l n pi) pi = gd l n := gd_swap_snd l n pi hpil
  have hxy : hle cmp mh (gd l n).p (gd l pi).p := hle_of_not_hle cmp hc mh _ _ hno
  constructor
  · intro j hj hj0 hjne
    rw [length_swap] at hj
    by_cases hjn : j = n
    · subst hjn
      rw [← hpidef, hswpi, hswn]
      exact hxy
    · by_cases hpj_pi : (j - 1) / 2 = pi
      · rw [hpj_pi, hswpi, gd_swap_other l n pi j hjn hjne]
        exact hle_trans cmp hc mh _ _ _ hxy
          (hpj_pi ▸ hinv.1 j hj hj0 hjn)
      · by_cases hpj_n : (j - 1) / 2 = n
        · have hjgt : n < j := by omega
          rw [hpj_n, hswn, gd_swap_other l n pi j hjn (by omega)]
          have h2 := hinv.2 (by omega) j hj hpj_n
          exact h2
        · rw [gd_swap_other l n pi ((j - 1) / 2) hpj_n hpj_pi,
            gd_swap_other l n pi j hjn hjne]
          exact hinv.1 j hj hj0 hjn
  · intro hpi0 j hj hpj
    rw [length_swap] at hj
    have hppi : (pi - 1) / 2 < pi := by omega
    have hedge : hle cmp mh (gd l ((pi - 1) / 2)).p (gd l pi).p :=
      hinv.1 pi hpil hpi0 (by omega)
    rw [gd_swap_other l n pi ((pi - 1) / 2) (by omega) (by omega)]
    by_cases hjn : j = n
    · subst hjn
      rw [hswn]
      exact hedge
    · have hjgt : pi < j := by omega
      rw [gd_swap_other l n pi j hjn (by omega)]
      refine hle_trans cmp hc mh _ _ _ hedge ?_
      have := hinv.1 j hj (by omega) hjn
      rw [hpj] at this
      exact this

/-- Sift-up from a position satisfying the invariant produces a heap with the
same length and contents. -/
theorem heapifyUp_correct (cmp : P → P → Int) (hc : IsCmp cmp) (mh : Bool) :
    ∀ (l : List (PQNode P W)) (i : Nat), i < l.length → UpInv cmp mh l i →
      IsHeap cmp mh (heapifyUp cmp mh l i) ∧
      (heapifyUp cmp mh l i).length = l.length ∧
      ((heapifyUp cmp mh l i : List (PQNode P W)) : Multiset (PQNode P W)) = ↑l := by
  intro l i
  induction l, i using @heapifyUp.induct P W _ _ cmp mh with
  | case1 heap =>
    intro _ hinv
    rw [heapifyUp]
    refine ⟨?_, rfl, rfl⟩
    intro j hj hj0
    exact hinv.1 j hj hj0 (by omega)
  | case2 heap i parentIndex hstop =>
    intro hn hinv
    have hstop2 : hle cmp mh (gd heap ((i + 1 - 1) / 2)).p (gd heap (i + 1)).p := by
      unfold hle
      cases mh <;> simpa using hstop
    have hcond : (if mh = true then cmp (gd heap (i + 1)).p (gd heap ((i + 1 - 1) / 2)).p ≥ 0
        else cmp (gd heap (i + 1)).p (gd heap ((i + 1 - 1) / 2)).p ≤ 0) := by
      cases mh <;> simpa using hstop
    rw [heapifyUp, if_pos hcond]
    refine ⟨?_, rfl, rfl⟩
    intro j hj hj0
    by_cases hjn : j = i + 1
    · subst hjn; exact hstop2
    · exact hinv.1 j hj hj0 hjn
  | case3 heap i parentIndex hstop ih =>
    intro hn hinv
    have hno : ¬ hle cmp mh (gd heap ((i + 1 - 1) / 2)).p (gd heap (i + 1)).p := by
      unfold hle
      cases mh <;> simpa using hstop
    have hcond : ¬ (if mh = true then cmp (gd heap (i + 1)).p (gd heap ((i + 1 - 1) / 2)).p ≥ 0
        else cmp (gd heap (i + 1)).p (gd heap ((i + 1 - 1) / 2)).p ≤ 0) := by
      cases mh <;> simpa using hstop
    have hpil : (i + 1 - 1) / 2 < heap.length := by omega
    have hswlen : (swap heap (i + 1) ((i + 1 - 1) / 2)).length = heap.length :=
      length_swap ..
    have hinv2 := upInv_step cmp hc mh heap i hn hinv hno
    obtain ⟨h1, h2, h3⟩ := ih (by rw [hswlen]; omega) hinv2
    rw [heapifyUp, if_neg hcond]
    refine ⟨h1, ?_, ?_⟩
    · rw [h2, hswlen]
    · rw [h3, coe_swap heap (i + 1) ((i + 1 - 1) / 2) hn hpil]

/-- Appending a fresh entry to a heap establishes the sift-up invariant at
the new last index. -/
theorem upInv_append (cmp : P → P → Int) (mh : Bool) (l : List (PQNode P W))
    (x : PQNode P W) (hh : IsHeap cmp mh l) :
    UpInv cmp mh (l ++ [x]) l.length := by
  constructor
  · intro j hj hj0 hjne
    rw [List.length_append, List.length_singleton] at hj
    have hjl : j < l.length := by omega
    have hpj : (j - 1) / 2 < l.length := by omega
    rw [gd_append_lt l [x] j hjl, gd_append_lt l [x] _ hpj]
    exact hh j hjl hj0
  · intro h0 j hj hpj
    rw [List.length_append, List.length_singleton] at hj
    exfalso
    omega

/-- `Enqueue` preserves the size/length agreement and the heap property and
adds exactly the new entry to the contents. -/
theorem pqEnqueue_correct (cmp : P → P → Int) (hc : IsCmp cmp) (st : PQState P W)
    (p : P) (v : W) (hwf : st.size = st.heap.length)
    (hh : IsHeap cmp st.minHeap st.heap) :
    (pqEnqueue cmp st p v).size = (pqEnqueue cmp st p v).heap.length ∧
    (pqEnqueue cmp st p v).minHeap = st.minHeap ∧
    (pqEnqueue cmp st p v).size = st.size + 1 ∧
    IsHeap cmp st.minHeap (pqEnqueue cmp st p v).heap ∧
    ((pqEnqueue cmp st p v).heap : Multiset (PQNode P W)) =
      ↑st.heap + {(⟨p, v⟩ : PQNode P W)} := by
  have hidx : st.size + 1 - 1 = st.heap.length := by omega
  have hlen : st.heap.length < (st.heap ++ [(⟨p, v⟩ : PQNode P W)]).length := by
    simp
  have hinv := upInv_append cmp st.minHeap st.heap (⟨p, v⟩ : PQNode P W) hh
  obtain ⟨h1, h2, h3⟩ :=
    heapifyUp_correct cmp hc st.minHeap (st.heap ++ [(⟨p, v⟩ : PQNode P W)])
      st.heap.length hlen hinv
  unfold pqEnqueue
  rw [hidx]
  refine ⟨?_, rfl, rfl, h1, ?_⟩
  · simp [h2, hwf]
  · rw [h3, ← Multiset.coe_add, Multiset.coe_singleton]

/-- Folding `Enqueue` over a list of pairs from the empty queue. -/
def pqBuild (cmp : P → P → Int) (mh : Bool) (inputs : List (P × W)) : PQState P W :=
  inputs.foldl (fun st pv => pqEnqueue cmp st pv.1 pv.2) (pqEmpty P W mh)

theorem pqBuild_foldl (cmp : P → P → Int) (hc : IsCmp cmp) (inputs : List (P × W)) :
    ∀ st : PQState P W, st.size = st.heap.length →
      IsHeap cmp st.minHeap st.heap →
      (inputs.foldl (fun st pv => pqEnqueue cmp st pv.1 pv.2) st).size =
        (inputs.foldl (fun st pv => pqEnqueue cmp st pv.1 pv.2) st).heap.length ∧
      (inputs.foldl (fun st pv => pqEnqueue cmp st pv.1 pv.2) st).minHeap = st.minHeap ∧
      IsHeap cmp st.minHeap (inputs.foldl (fun st pv => pqEnqueue cmp st pv.1 pv.2) st).heap ∧
      ((inputs.foldl (fun st pv => pqEnqueue cmp st pv.1 pv.2) st).heap :
          Multiset (PQNode P W)) =
        ↑st.heap + ↑(inputs.map fun pv => (⟨pv.1, pv.2⟩ : PQNode P W)) := by
  induction inputs with
  | nil => intro st hwf hh; exact ⟨hwf, rfl, hh, by simp⟩
  | cons pv inputs ih =>
    intro st hwf hh
    obtain ⟨e1, e2, e3, e4, e5⟩ := pqEnqueue_correct cmp hc st pv.1 pv.2 hwf hh
    simp only [List.foldl_cons]
    obtain ⟨f1, f2, f3, f4⟩ := ih (pqEnqueue cmp st pv.1 pv.2) e1 (e2 ▸ e4)
    refine ⟨f1, by rw [f2, e2], e2 ▸ f3, ?_⟩
    rw [f4, e5]
    simp only [List.map_cons]
    rw [show ((⟨pv.1, pv.2⟩ : PQNode P W) ::
        (inputs.map fun q => (⟨q.1, q.2⟩ : PQNode P W)) : List (PQNode P W)) =
      [(⟨pv.1, pv.2⟩ : PQNode P W)] ++ (inputs.map fun q => (⟨q.1, q.2⟩ : PQNode P W))
      from rfl]
    rw [← Multiset.coe_add, Multiset.coe_singleton]
    abel

/-- Case analysis of the child selection: either no child wins and both
in-bounds children already sit below the entry, or the winner is a child that
may sit above the entry and above its in-bounds sibling. -/
theorem smallestOrLargest_spec (cmp : P → P → Int) (hc : IsCmp cmp) (mh : Bool)
    (size : Nat) (heap : List (PQNode P W)) (index : Nat) :
    (smallestOrLargest cmp mh size heap index = index ∧
      (∀ j, j < size → (j = 2 * index + 1 ∨ j = 2 * index + 2) →
        hle cmp mh (gd heap index).p (gd heap j).p)) ∨
    ((smallestOrLargest cmp mh size heap index = 2 * index + 1 ∨
        smallestOrLargest cmp mh size heap index = 2 * index + 2) ∧
      smallestOrLargest cmp mh size heap index < size ∧
      hle cmp mh (gd heap (smallestOrLargest cmp mh size heap index)).p
        (gd heap index).p ∧
      (∀ j, j < size → (j = 2 * index + 1 ∨ j = 2 * index + 2) →
        j ≠ smallestOrLargest cmp mh size heap index →
          hle cmp mh (gd heap (smallestOrLargest cmp mh size heap index)).p
            (gd heap j).p)) := by
  simp only [smallestOrLargest, downTest_iff cmp hc mh]
  split_ifs with h1 h2 h3
  · -- left child wins, then right child wins against it
    obtain ⟨hl, hpl⟩ := h1
    obtain ⟨hr, hpr⟩ := h2
    have hlc := hle_of_not_hle cmp hc mh _ _ hpl
    have hrc := hle_of_not_hle cmp hc mh _ _ hpr
    right
    refine ⟨Or.inr rfl, hr, hle_trans cmp hc mh _ _ _ hrc hlc, ?_⟩
    intro j hj hcj hjne
    have hj1 : j = 2 * index + 1 := by omega
    subst hj1
    exact hrc
  · -- left child wins, right child does not beat it
    obtain ⟨hl, hpl⟩ := h1
    have hlc := hle_of_not_hle cmp hc mh _ _ hpl
    right
    refine ⟨Or.inl rfl, hl, hlc, ?_⟩
    intro j hj hcj hjne
    have hj2 : j = 2 * index + 2 := by omega
    subst hj2
    exact not_not.mp (fun hp => h2 ⟨hj, hp⟩)
  · -- left child does not win, right child wins against the entry
    obtain ⟨hr, hpr⟩ := h3
    have hrc := hle_of_not_hle cmp hc mh _ _ hpr
    right
    refine ⟨Or.inr rfl, hr, hrc, ?_⟩
    intro j hj hcj hjne
    have hj1 : j = 2 * index + 1 := by omega
    subst hj1
    exact hle_trans cmp hc mh _ _ _ hrc (not_not.mp (fun hp => h1 ⟨hj, hp⟩))
  · -- neither child wins
    left
    refine ⟨rfl, ?_⟩
    intro j hj hcj
    rcases hcj with hj1 | hj2
    · subst hj1
      exact not_not.mp (fun hp => h1 ⟨hj, hp⟩)
    · subst hj2
      exact not_not.mp (fun hp => h3 ⟨hj, hp⟩)

/-- One sift-down swap step preserves the sift-down invariant, moving the hole
to the selected child. -/
theorem downInv_step (cmp : P → P → Int) (hc : IsCmp cmp) (mh : Bool)
    (l : List (PQNode P W)) (i s : Nat) (hs : s < l.length)
    (hchild : s = 2 * i + 1 ∨ s = 2 * i + 2)
    (hyx : hle cmp mh (gd l s).p (gd l i).p)
    (hsib : ∀ j, j < l.length → (j = 2 * i + 1 ∨ j = 2 * i + 2) → j ≠ s →
      hle cmp mh (gd l s).p (gd l j).p)
    (hinv : DownInv cmp mh l i) :
    DownInv cmp mh (swap l i s) s := by
  have his : i < s := by omega
  have hil : i < l.length := by omega
  have hswi : gd (swap l i s) i = gd l s := gd_swap_fst l i s hil hs
  have hsws : gd (swap l i s) s = gd l i := gd_swap_snd l i s hs
  constructor
  · intro j hj hj0 hjne
    rw [length_swap] at hj
    by_cases hjs : j = s
    · subst hjs
      have hpj : (j - 1) / 2 = i := by omega
      rw [hpj, hswi, hsws]
      exact hyx
    · by_cases hpj_i : (j - 1) / 2 = i
      · have hjch : j = 2 * i + 1 ∨ j = 2 * i + 2 := by omega
        have hji : j ≠ i := by omega
        rw [hpj_i, hswi, gd_swap_other l i s j hji hjs]
        exact hsib j hj hjch hjs
      · by_cases hji : j = i
        · rw [hji]
          have h0i : 0 < i := by omega
          rw [gd_swap_other l i s ((i - 1) / 2) (by omega) (by omega), hswi]
          exact hinv.2 h0i s hs (by omega)
        · rw [gd_swap_other l i s ((j - 1) / 2) hpj_i hjne,
            gd_swap_other l i s j hji hjs]
          exact hinv.1 j hj hj0 hpj_i
  · intro hs0 j hj hpj
    rw [length_swap] at hj
    have hji : j ≠ i := by omega
    have hjs : j ≠ s := by omega
    have hps : (s - 1) / 2 = i := by omega
    rw [hps, hswi, gd_swap_other l i s j hji hjs]
    have := hinv.1 j hj (by omega) (by omega)
    rw [hpj] at this
    exact this

/-- Sift-down from a position satisfying the invariant produces a heap with
the same length and contents, provided `size` is the list length. -/
theorem heapifyDown_correct (cmp : P → P → Int) (hc : IsCmp cmp) (mh : Bool)
    (size : Nat) :
    ∀ (l : List (PQNode P W)) (i : Nat), size = l.length → DownInv cmp mh l i →
      IsHeap cmp mh (heapifyDown cmp mh size l i) ∧
      (heapifyDown cmp mh size l i).length = l.length ∧
      ((heapifyDown cmp mh size l i : List (PQNode P W)) : Multiset (PQNode P W)) =
        ↑l := by
  intro l i
  induction l, i using @heapifyDown.induct P W _ _ cmp mh size with
  | case1 heap index hstop =>
    intro hsz hinv
    rw [heapifyDown, if_pos hstop]
    refine ⟨?_, rfl, rfl⟩
    intro j hj hj0
    by_cases hpj : (j - 1) / 2 = index
    · rcases smallestOrLargest_spec cmp hc mh size heap index with ⟨_, hch⟩ | ⟨_, hlt, _, _⟩
      · have hjch : j = 2 * index + 1 ∨ j = 2 * index + 2 := by omega
        rw [hpj]
        exact hch j (by omega) hjch
      · omega
    · exact hinv.1 j hj hj0 hpj
  | case2 heap index hstop ih =>
    intro hsz hinv
    rcases smallestOrLargest_spec cmp hc mh size heap index with ⟨heq, _⟩ |
      ⟨hch, hlt, hyx, hsib⟩
    · exact absurd heq hstop
    · set s := smallestOrLargest cmp mh size heap index with hsdef
      have hs : s < heap.length := by omega
      have hinv2 := downInv_step cmp hc mh heap index s hs hch hyx
        (fun j hj hcj hjne => hsib j (by omega) hcj hjne) hinv
      obtain ⟨h1, h2, h3⟩ := ih (by rw [length_swap]; omega) hinv2
      rw [heapifyDown, if_neg hstop]
      refine ⟨h1, ?_, ?_⟩
      · rw [h2, length_swap]
      · rw [h3, coe_swap heap index s (by omega) hs]

/-- In a heap the root may sit above every entry. -/
theorem isHeap_root_hle (cmp : P → P → Int) (hc : IsCmp cmp) (mh : Bool)
    (l : List (PQNode P W)) (hh : IsHeap cmp mh l) :
    ∀ j, j < l.length → hle cmp mh (gd l 0).p (gd l j).p := by
  intro j
  induction j using Nat.strong_induction_on with
  | _ j ih =>
    intro hj
    rcases Nat.eq_zero_or_pos j with h0 | h0
    · subst h0; exact hle_refl cmp hc mh _
    · exact hle_trans cmp hc mh _ _ _
        (ih ((j - 1) / 2) (by omega) (by omega)) (hh j hj h0)

/-- `ExtractTop` on a non-empty well-formed heap returns the root pair and a
well-formed heap holding the remaining contents. -/
theorem pqExtractTop_correct (cmp : P → P → Int) (hc : IsCmp cmp)
    (st st1 : PQState P W) (pv : P × W)
    (hwf : st.size = st.heap.length) (hh : IsHeap cmp st.minHeap st.heap)
    (hext : pqExtractTop cmp st = some (pv, st1)) :
    pv = ((gd st.heap 0).p, (gd st.heap 0).v) ∧
    st1.size = st1.heap.length ∧ st1.minHeap = st.minHeap ∧
    IsHeap cmp st.minHeap st1.heap ∧
    ((st1.heap : Multiset (PQNode P W)) + {(⟨pv.1, pv.2⟩ : PQNode P W)}) =
      ↑st.heap := by
  have hne : st.size ≠ 0 := (pqExtractTop_size cmp st st1 pv hext).1
  unfold pqExtractTop at hext
  rw [if_neg hne] at hext
  simp only [Option.some_inj, Prod.mk.injEq] at hext
  obtain ⟨hpv, hst1⟩ := hext
  have hn1 : st.size - 1 < st.heap.length := by omega
  have h0 : 0 < st.heap.length := by omega
  have hsetlen : (st.heap.set 0 (gd st.heap (st.size - 1))).length = st.heap.length := by
    simp
  have hbaselen :
      ((st.heap.set 0 (gd st.heap (st.size - 1))).take (st.size - 1)).length =
        st.size - 1 := by
    simp [hsetlen]
    omega
  have hdinv : DownInv cmp st.minHeap
      ((st.heap.set 0 (gd st.heap (st.size - 1))).take (st.size - 1)) 0 := by
    constructor
    · intro j hj hj0 hpj
      rw [hbaselen] at hj
      have hpjn : (j - 1) / 2 ≠ 0 := hpj
      rw [gd_take _ _ _ (by omega), gd_take _ _ _ (by omega),
        gd_set_ne _ _ _ _ (by omega), gd_set_ne _ _ _ _ (by omega)]
      exact hh j (by omega) hj0
    · intro h00
      exact absurd h00 (by omega)
  obtain ⟨d1, d2, d3⟩ := heapifyDown_correct cmp hc st.minHeap (st.size - 1)
    ((st.heap.set 0 (gd st.heap (st.size - 1))).take (st.size - 1)) 0
    (by omega) hdinv
  have hmset : (((st.heap.set 0 (gd st.heap (st.size - 1))).take (st.size - 1) :
      List (PQNode P W)) : Multiset (PQNode P W)) + {gd st.heap 0} = ↑st.heap := by
    rcases Nat.lt_or_ge st.size 2 with hsz | hsz
    · have hs1 : st.size = 1 := by omega
      have hl1 : st.heap.length = 1 := by omega
      obtain ⟨a, ha⟩ := List.length_eq_one.mp hl1
      rw [ha, hs1]
      simp [gd, List.getD]
    · have hne01 : (0 : Nat) ≠ st.size - 1 := by omega
      have hsplit : st.heap.set 0 (gd st.heap (st.size - 1)) =
          (st.heap.set 0 (gd st.heap (st.size - 1))).take (st.size - 1) ++
            [st.heap[st.size - 1]] := by
        conv_lhs => rw [← List.take_append_drop (st.size - 1)
          (st.heap.set 0 (gd st.heap (st.size - 1)))]
        congr 1
        rw [List.drop_eq_getElem_cons (by omega : st.size - 1 <
          (st.heap.set 0 (gd st.heap (st.size - 1))).length)]
        rw [show st.size - 1 + 1 = (st.heap.set 0 (gd st.heap (st.size - 1))).length
          by simp; omega]
        rw [List.drop_length]
        congr 1
        rw [List.getElem_set_ne hne01]
      have hA : ((st.heap.set 0 (gd st.heap (st.size - 1)) : List (PQNode P W)) :
          Multiset (PQNode P W)) =
          ↑((st.heap.set 0 (gd st.heap (st.size - 1))).take (st.size - 1)) +
            {st.heap[st.size - 1]} := by
        conv_lhs => rw [hsplit]
        rw [← Multiset.coe_add, Multiset.coe_singleton]
      have hB := coe_set_add st.heap 0 h0 (gd st.heap (st.size - 1))
      rw [gd_eq st.heap (st.size - 1) hn1] at hA hB
      rw [gd_eq st.heap 0 h0, gd_eq st.heap (st.size - 1) hn1]
      rw [hA] at hB
      have hB2 : ↑((st.heap.set 0 (st.heap[st.size - 1])).take (st.size - 1)) +
          {st.heap[0]} + {st.heap[st.size - 1]} =
          (↑st.heap + {st.heap[st.size - 1]} : Multiset (PQNode P W)) := by
        rw [← hB]
        abel
      exact add_right_cancel hB2
  subst hpv
  refine ⟨rfl, ?_, ?_, ?_, ?_⟩
  · rw [← hst1]
    simp only []
    rw [d2, hbaselen]
  · rw [← hst1]
  · rw [← hst1]
    simpa using d1
  · rw [← hst1]
    simp only []
    rw [d3]
    exact hmset

/-- Draining a well-formed heap yields its whole contents in an order where
every extracted entry may sit above every later one. -/
theorem pqDrain_spec (cmp : P → P → Int) (hc : IsCmp cmp) :
    ∀ st : PQState P W, st.size = st.heap.length →
      IsHeap cmp st.minHeap st.heap →
      (↑((pqDrain cmp st).map fun pv => (⟨pv.1, pv.2⟩ : PQNode P W)) :
          Multiset (PQNode P W)) = ↑st.heap ∧
      List.Chain' (fun a b => hle cmp st.minHeap a.1 b.1) (pqDrain cmp st) := by
  intro st
  induction st using @pqDrain.induct P W _ _ cmp with
  | case1 st hnone =>
    intro hwf hh
    have hsz : st.size = 0 := by
      by_contra hne
      unfold pqExtractTop at hnone
      rw [if_neg hne] at hnone
      simp at hnone
    have hempty : st.heap = [] := by
      have : st.heap.length = 0 := by omega
      exact List.length_eq_zero.mp this
    rw [pqDrain, hnone, hempty]
    simp
  | case2 st pv st1 hext ih =>
    intro hwf hh
    obtain ⟨hpv, w1, w2, w3, w4⟩ := pqExtractTop_correct cmp hc st st1 pv hwf hh hext
    obtain ⟨c1, c2⟩ := ih w1 (w2 ▸ w3)
    rw [pqDrain, hext]
    have hmem : ∀ q ∈ pqDrain cmp st1, hle cmp st.minHeap pv.1 q.1 := by
      intro q hq
      have hnode : (⟨q.1, q.2⟩ : PQNode P W) ∈ st1.heap := by
        have : (⟨q.1, q.2⟩ : PQNode P W) ∈
            ((pqDrain cmp st1).map fun pv => (⟨pv.1, pv.2⟩ : PQNode P W)) :=
          List.mem_map.mpr ⟨q, hq, rfl⟩
        have hm : (⟨q.1, q.2⟩ : PQNode P W) ∈
            (↑st1.heap : Multiset (PQNode P W)) := by
          rw [← c1]
          simpa using this
        simpa using hm
      have hmem2 : (⟨q.1, q.2⟩ : PQNode P W) ∈ st.heap := by
        have : (⟨q.1, q.2⟩ : PQNode P W) ∈ (↑st.heap : Multiset (PQNode P W)) := by
          rw [← w4]
          simp [hnode]
        simpa using this
      obtain ⟨idx, hidx, hidxeq⟩ := List.mem_iff_getElem.mp hmem2
      have := isHeap_root_hle cmp hc st.minHeap st.heap hh idx hidx
      rw [gd_eq st.heap idx hidx, hidxeq] at this
      rw [hpv]
      exact this
    constructor
    · simp only [List.map_cons]
      rw [show ((⟨pv.1, pv.2⟩ : PQNode P W) ::
          ((pqDrain cmp st1).map fun q => (⟨q.1, q.2⟩ : PQNode P W)) :
          List (PQNode P W)) =
        [(⟨pv.1, pv.2⟩ : PQNode P W)] ++
          ((pqDrain cmp st1).map fun q => (⟨q.1, q.2⟩ : PQNode P W)) from rfl]
      rw [← Multiset.coe_add, Multiset.coe_singleton, c1, ← w4]
      abel
    · rw [List.chain'_cons']
      refine ⟨?_, w2 ▸ c2⟩
      intro y hy
      exact hmem y (List.mem_of_mem_head? hy)

/-- Translation of the `hle` relation back into the comparator language of the
claim. -/
theorem hle_iff_cmp (cmp : P → P → Int) (hc : IsCmp cmp) (mh : Bool) (a b : P) :
    hle cmp mh a b ↔ (if mh then cmp a b ≠ 1 else cmp a b ≠ -1) := by
  have h1 := hc.antisym a b
  have h2 := hc.range a b
  unfold hle
  split_ifs <;> omega

/-- Claim C2 (confirmed): for every comparator realizing a total order, every
orientation and every Enqueue sequence from the empty priority queue, draining
with `ExtractTop` returns exactly the multiset of enqueued (priority, value)
pairs, with priorities non-decreasing for a min-heap and non-increasing for a
max-heap. -/
theorem pq_heap_order_c2 (cmp : P → P → Int) (hc : IsCmp cmp) (mh : Bool)
    (inputs : List (P × W)) :
    (↑((pqDrain cmp (pqBuild cmp mh inputs)).map
        fun pv => (⟨pv.1, pv.2⟩ : PQNode P W)) : Multiset (PQNode P W)) =
      ↑(inputs.map fun pv => (⟨pv.1, pv.2⟩ : PQNode P W)) ∧
    List.Chain' (fun a b => if mh then cmp a.1 b.1 ≠ 1 else cmp a.1 b.1 ≠ -1)
      (pqDrain cmp (pqBuild cmp mh inputs)) := by
  have hempty : (pqEmpty P W mh).size = (pqEmpty P W mh).heap.length := rfl
  have hemptyheap : IsHeap cmp (pqEmpty P W mh).minHeap (pqEmpty P W mh).heap := by
    intro j hj hj0
    simp [pqEmpty] at hj
  obtain ⟨b1, b2, b3, b4⟩ := pqBuild_foldl cmp hc inputs (pqEmpty P W mh)
    hempty hemptyheap
  have hmh : (pqBuild cmp mh inputs).minHeap = mh := b2
  have b3h : IsHeap cmp (pqBuild cmp mh inputs).minHeap (pqBuild cmp mh inputs).heap := by
    rw [hmh]
    exact b3
  obtain ⟨d1, d2⟩ := pqDrain_spec cmp hc (pqBuild cmp mh inputs) b1 b3h
  constructor
  · rw [d1]
    rw [show (pqBuild cmp mh inputs).heap =
      (inputs.foldl (fun st pv => pqEnqueue cmp st pv.1 pv.2) (pqEmpty P W mh)).heap
      from rfl]
    rw [b4]
    simp [pqEmpty]
  · refine List.Chain'.imp ?_ d2
    intro a b hab
    rw [← hle_iff_cmp cmp hc mh]
    rw [hmh] at hab
    exact hab

/-- Witness for claim C2: a two-element min-heap drains to non-decreasing
priorities carrying the right pairs. -/
theorem pq_heap_order_c2_witness :
    (↑((pqDrain comparatorInt
          (pqBuild comparatorInt true ([(2, 20), (1, 10)] : List (Int × Int)))).map
        fun pv => (⟨pv.1, pv.2⟩ : PQNode Int Int)) : Multiset (PQNode Int Int)) =
      ↑((([(2, 20), (1, 10)] : List (Int × Int))).map
        fun pv => (⟨pv.1, pv.2⟩ : PQNode Int Int)) ∧
    List.Chain' (fun a b => if true then comparatorInt a.1 b.1 ≠ 1
        else comparatorInt a.1 b.1 ≠ -1)
      (pqDrain comparatorInt
        (pqBuild comparatorInt true ([(2, 20), (1, 10)] : List (Int × Int)))) :=
  pq_heap_order_c2 comparatorInt comparatorInt_isCmp true [(2, 20), (1, 10)]

/-- Model of `PriorityQueue.Copy`: element-wise copy of the backing slice. -/
def pqCopy (st : PQState P W) : PQState P W :=
  { heap := st.heap.map fun n => ⟨n.p, n.v⟩,
    size := st.size, minHeap := st.minHeap }

/-! ## Queue, simple version (src/queue/queue.go)

Backing slice with `front`/`rear` indices; dequeued elements stay in the
slice.  `Contains` scans the WHOLE backing slice from index 0. -/

structure QueueC (T : Type) where
  items : List T
  front : Nat
  rear : Nat
deriving DecidableEq, Repr

/-- Model of simple `queue.NewEmpty`. -/
def qcEmpty (T : Type) : QueueC T := { items := [], front := 0, rear := 0 }

/-- Model of simple `Queue.Enqueue`: append and bump `rear`. -/
def qcEnqueue (q : QueueC T) (x : T) : QueueC T :=
  { q with items := q.items ++ [x], rear := q.rear + 1 }

/-- Model of simple `Queue.Dequeue`: error when `front == rear`, else return
`items[front]` and bump `front` (the slot is not cleared). -/
def qcDequeue [Inhabited T] (q : QueueC T) : Option T × QueueC T :=
  if q.front = q.rear then (none, q)
  else (some (gd q.items q.front), { q with front := q.front + 1 })

/-- Scan of `Queue.Contains`: `for i := range queue.items`, returning the
absolute index of the first match in the backing slice, -1 otherwise. -/
def qcScan [DecidableEq T] (item : T) : List T → Nat → Int
  | [], _ => -1
  | x :: rest, i => if x = item then (i : Int) else qcScan item rest (i + 1)

/-- Model of simple `Queue.Contains`. -/
def qcContains [DecidableEq T] (q : QueueC T) (item : T) : Int :=
  qcScan item q.items 0

/-- Model of simple `Queue.ToSlice`: copy of `items[front:rear]`. -/
def qcToSlice (q : QueueC T) : List T := (q.items.take q.rear).drop q.front

/-- Model of simple `Queue.Size`. -/
def qcSize (q : QueueC T) : Int := (q.rear : Int) - (q.front : Int)

/-! ## Queue, circular-buffer version (src/unnamed/part_005)

Fixed-capacity buffer with wraparound; `Find` scans only the `size` live
entries starting at `front` and returns the relative position. -/

structure Queue5 (T : Type) where
  items : List T
  front : Nat
  rear : Nat
  size : Nat
deriving DecidableEq, Repr

/-- Model of circular `queue.NewEmpty`: `make([]T, 4)` holds zero values. -/
def q5Empty (T : Type) [Inhabited T] : Queue5 T :=
  { items := List.replicate 4 default, front := 0, rear := 0, size := 0 }

/-- Model of `Queue.grow`: double the capacity, unroll the circular contents
to the front, pad with zero values. -/
def q5Grow [Inhabited T] (q : Queue5 T) : Queue5 T :=
  let newCapacity := q.items.length * 2
  let data := if q.front < q.rear then (q.items.take q.rear).drop q.front
    else q.items.drop q.front ++ q.items.take q.rear
  { items := data ++ List.replicate (newCapacity - data.length) default,
    front := 0, rear := q.size, size := q.size }

/-- Model of circular `Queue.Enqueue`. -/
def q5Enqueue [Inhabited T] (q : Queue5 T) (x : T) : Queue5 T :=
  let q1 := if q.size = q.items.length then q5Grow q else q
  { q1 with
    items := q1.items.set q1.rear x,
    rear := (q1.rear + 1) % q1.items.length,
    size := q1.size + 1 }

/-- Model of circular `Queue.Dequeue`. -/
def q5Dequeue [Inhabited T] (q : Queue5 T) : Option T × Queue5 T :=
  if q.size = 0 then (none, q)
  else (some (gd q.items q.front),
    { q with front := (q.front + 1) % q.items.length, size := q.size - 1 })

/-- Loop of circular `Queue.Find`: walk `size` entries from `front` with
wraparound, counting `traversed`, and return the relative position of the
first comparator match. -/
def q5FindLoop [Inhabited T] (cmp : T → T → Int) (items : List T) (size : Nat)
    (item : T) (i traversed : Nat) : Int :=
  -- Go's guard is `traversed != size`; since `traversed` starts at 0 and only
  -- steps by 1, it never overshoots `size`, so `≥` is the same exit test.
  if traversed ≥ size then -1
  else if cmp (gd items i) item = 0 then (traversed : Int)
  else q5FindLoop cmp items size item ((i + 1) % items.length) (traversed + 1)
termination_by size - traversed
decreasing_by omega

/-- Model of circular `Queue.Find`. -/
def q5Find [Inhabited T] (cmp : T → T → Int) (q : Queue5 T) (item : T) : Int :=
  q5FindLoop cmp q.items q.size item q.front 0

/-- Model of circular `Queue.ToSlice`: copy the `size` live entries into a
fresh slice of length `size`. -/
def q5ToSlice (q : Queue5 T) : List T :=
  if q.front < q.rear then (q.items.take q.rear).drop q.front
  else (q.items.drop q.front ++ q.items.take q.rear).take q.size

/-- State of the simple queue after Enqueue(1); Enqueue(2); Dequeue(). -/
def c7qc : QueueC Int := (qcDequeue (qcEnqueue (qcEnqueue (qcEmpty Int) 1) 2)).2

/-- State of the circular queue after Enqueue(1); Enqueue(2); Dequeue(). -/
def c7q5 : Queue5 Int := (q5Dequeue (q5Enqueue (q5Enqueue (q5Empty Int) 1) 2)).2

/-- Claim C7 (code bug): after Enqueue(1); Enqueue(2); Dequeue() the queue's
current elements are exactly [2], yet `Contains(1)` of src/queue/queue.go
returns 0 (the index of the already-dequeued element in the backing slice)
instead of -1, and `Contains(2)` returns 1 instead of the front-relative
position 0 — its scan covers the dequeued prefix and its result shifts with
every dequeue, contradicting both the claim and the function's own
documentation.  The comparator-based `Find` of src/unnamed/part_005 behaves
as the claim states on the same scenario. -/
theorem queue_contains_position_c7 :
    qcToSlice c7qc = [2] ∧ qcSize c7qc = 1 ∧
    qcContains c7qc 1 = 0 ∧ qcContains c7qc 2 = 1 ∧
    q5ToSlice c7q5 = [2] ∧
    q5Find comparatorInt c7q5 1 = -1 ∧ q5Find comparatorInt c7q5 2 = 0 := by
  refine ⟨by rfl, by rfl, by rfl, by rfl, by rfl, ?_, ?_⟩
  · show q5FindLoop comparatorInt c7q5.items c7q5.size 1 c7q5.front 0 = -1
    rw [q5FindLoop]
    norm_num [c7q5, q5Dequeue, q5Enqueue, q5Empty, q5Grow, gd, comparatorInt]
    rw [q5FindLoop]
    norm_num
  · show q5FindLoop comparatorInt c7q5.items c7q5.size 2 c7q5.front 0 = 0
    rw [q5FindLoop]
    norm_num [c7q5, q5Dequeue, q5Enqueue, q5Empty, q5Grow, gd, comparatorInt]

/-! ## Doubly-linked list (src/list/list.go)

The linked structure is embedded as the sequence of its values; the `size`
field of the Go struct always equals the node count (every insert adds one
node and increments it, every remove deletes one node and decrements it).
Positional walks become recursion on the position.  Errors are `none`; the Go
error paths return before any pointer is written, so the list is unchanged. -/

/-- Cursor walk of `List.InsertPosition` for an interior position. -/
def insertWalkL (x : T) : List T → Nat → List T
  | l, 0 => x :: l
  | [], _ + 1 => [x]
  | a :: l, n + 1 => a :: insertWalkL x l n

/-- Model of `List.InsertPosition` (position is a Go `int`). -/
def listInsertPosition (l : List T) (x : T) (position : Int) : Option (List T) :=
  if position < 0 ∨ position > l.length then none
  else if position = 0 then some (x :: l)
  else if position = l.length then some (l ++ [x])
  else some (insertWalkL x l position.toNat)

/-- Cursor walk of `List.Get`. -/
def getWalk : List T → Nat → Option T
  | [], _ => none
  | a :: _, 0 => some a
  | _ :: l, n + 1 => getWalk l n

/-- Model of `List.Get`. -/
def listGet (l : List T) (index : Int) : Option T :=
  if index < 0 ∨ index ≥ l.length then none
  else getWalk l index.toNat

/-- Cursor walk of `List.RemovePosition` for an interior index. -/
def removeWalk : List T → Nat → List T
  | [], _ => []
  | _ :: l, 0 => l
  | a :: l, n + 1 => a :: removeWalk l n

/-- Model of `List.removeFront`. -/
def listRemoveFront (l : List T) : Option (T × List T) :=
  match l with
  | [] => none
  | a :: rest => some (a, rest)

/-- Model of `List.removeBack`. -/
def listRemoveBack (l : List T) : Option (T × List T) :=
  match l.getLast? with
  | none => none
  | some a => some (a, l.dropLast)

/-- Model of `List.RemovePosition`: bounds check, then front/back/interior
branches as in the source. -/
def listRemovePosition (l : List T) (index : Int) : Option (T × List T) :=
  if index < 0 ∨ index ≥ l.length then none
  else if index = 0 then listRemoveFront l
  else if index = l.length - 1 then listRemoveBack l
  else match getWalk l index.toNat with
    | none => none
    | some v => some (v, removeWalk l index.toNat)

theorem getWalk_isSome (l : List T) : ∀ n, n < l.length → ∃ a, getWalk l n = some a := by
  induction l with
  | nil => intro n hn; simp at hn
  | cons a l ih =>
    intro n hn
    cases n with
    | zero => exact ⟨a, rfl⟩
    | succ n => exact ih n (by simpa using hn)

/-- Claim C9 (confirmed): `InsertPosition` fails exactly when
`position < 0 ∨ position > size`, `Get` and `RemovePosition` fail exactly when
`index < 0 ∨ index ≥ size`, and in range each operation succeeds.  The error
paths return before any pointer is written, so an error leaves the list (and
its size) unchanged, which the embedding reflects by producing no new state. -/
theorem list_position_errors_c9 (l : List T) (x : T) (p i : Int) :
    (listInsertPosition l x p = none ↔ (p < 0 ∨ p > l.length)) ∧
    (listGet l i = none ↔ (i < 0 ∨ i ≥ l.length)) ∧
    (listRemovePosition l i = none ↔ (i < 0 ∨ i ≥ l.length)) := by
  refine ⟨?_, ?_, ?_⟩
  · unfold listInsertPosition
    split_ifs with h1 h2 h3
    · simp [h1]
    · simp only [reduceCtorEq, false_iff]; exact h1
    · simp only [reduceCtorEq, false_iff]; exact h1
    · simp only [reduceCtorEq, false_iff]; exact h1
  · unfold listGet
    split_ifs with h1
    · simp [h1]
    · simp only [iff_false, h1, not_false_iff]
      push_neg at h1
      obtain ⟨a, ha⟩ := getWalk_isSome l i.toNat (by omega)
      simp [ha]
  · unfold listRemovePosition
    split_ifs with h1 h2 h3
    · simp [h1]
    · -- index = 0, in range: list is non-empty
      cases l with
      | nil => simp at h1; omega
      | cons a rest =>
        simp only [listRemoveFront, reduceCtorEq, false_iff]
        exact h1
    · -- index = size - 1, in range: list is non-empty
      cases hl : l.getLast? with
      | none =>
        rw [List.getLast?_eq_none_iff] at hl
        subst hl
        simp at h1
        omega
      | some a =>
        simp only [listRemoveBack, hl, reduceCtorEq, false_iff]
        exact h1
    · -- interior index, in range
      obtain ⟨a, ha⟩ := getWalk_isSome l i.toNat (by push_neg at h1; omega)
      simp only [ha, reduceCtorEq, false_iff]
      exact h1

/-- Witness for claim C9 on the two-element list [10, 20]: inserting at 3 and
at -1 fail, inserting at 1 succeeds; Get/RemovePosition fail at 2 and succeed
at 1. -/
theorem list_position_errors_c9_witness :
    ((listInsertPosition [10, 20] (5 : Int) 3 = none ↔ ((3 : Int) < 0 ∨ (3 : Int) > ([10, 20] : List Int).length)) ∧
    (listGet ([10, 20] : List Int) (3 : Int) = none ↔ ((3 : Int) < 0 ∨ (3 : Int) ≥ ([10, 20] : List Int).length)) ∧
    (listRemovePosition ([10, 20] : List Int) 3 = none ↔ ((3 : Int) < 0 ∨ (3 : Int) ≥ ([10, 20] : List Int).length))) :=
  list_position_errors_c9 ([10, 20] : List Int) 5 3 3

/-! ## Set (src/set/set.go)

The Go `map[T]bool` holding only `true` entries is embedded as the finite set
of its keys, together with the cached `size` field. -/

structure SetState (T : Type) where
  items : Finset T
  size : Int
deriving DecidableEq

variable [DecidableEq T]

/-- Model of `set.NewEmpty`. -/
def setEmpty (T : Type) [DecidableEq T] : SetState T := { items := ∅, size := 0 }

/-- Model of `Set.Add`: nothing happens when the item already exists. -/
def setAdd (s : SetState T) (x : T) : SetState T :=
  if x ∈ s.items then s else { items := insert x s.items, size := s.size + 1 }

/-- Model of `Set.Remove`: nothing happens when the item is absent. -/
def setRemove (s : SetState T) (x : T) : SetState T :=
  if x ∈ s.items then { items := s.items.erase x, size := s.size - 1 } else s

/-- Model of `Set.Contains`. -/
def setContains (s : SetState T) (x : T) : Bool := x ∈ s.items

/-- Model of `Set.Clear`. -/
def setClear (T : Type) [DecidableEq T] : SetState T := { items := ∅, size := 0 }

/-- Operations of the C10 sequence. -/
inductive SOp (T : Type) where
  | add (x : T)
  | rem (x : T)
  | clr
deriving DecidableEq

def setStep (s : SetState T) : SOp T → SetState T
  | .add x => setAdd s x
  | .rem x => setRemove s x
  | .clr => setClear T

def setExec (ops : List (SOp T)) : SetState T :=
  ops.foldl setStep (setEmpty T)

theorem setStep_card (s : SetState T) (hs : s.size = s.items.card) (op : SOp T) :
    (setStep s op).size = (setStep s op).items.card := by
  cases op with
  | add x =>
    simp only [setStep, setAdd]
    split_ifs with hx
    · exact hs
    · simp [Finset.card_insert_of_not_mem hx, hs]
  | rem x =>
    simp only [setStep, setRemove]
    split_ifs with hx
    · have hc := Finset.card_erase_of_mem hx
      have hpos : 0 < s.items.card := Finset.card_pos.mpr ⟨x, hx⟩
      simp [hc, hs]
      omega
    · exact hs
  | clr => simp [setStep, setClear]

theorem setFoldl_card (ops : List (SOp T)) :
    ∀ s : SetState T, s.size = s.items.card →
      (ops.foldl setStep s).size = (ops.foldl setStep s).items.card := by
  induction ops with
  | nil => intro s hs; simpa using hs
  | cons op ops ih =>
    intro s hs
    simp only [List.foldl_cons]
    exact ih (setStep s op) (setStep_card s hs op)

/-- Claim C10 (confirmed): adding an existing member or removing an absent one
leaves the set state unchanged (hence Add is idempotent), and after any
operation sequence the cached size equals the number of distinct members. -/
theorem set_add_idempotent_c10 (s : SetState T) (x y z : T) (ops : List (SOp T))
    (hx : x ∈ s.items) (hy : y ∉ s.items) :
    setAdd s x = s ∧ setRemove s y = s ∧
    setAdd (setAdd s z) z = setAdd s z ∧
    (setExec ops).size = (setExec ops).items.card := by
  refine ⟨?_, ?_, ?_, ?_⟩
  · simp [setAdd, hx]
  · simp [setRemove, hy]
  · by_cases hz : z ∈ s.items
    · simp [setAdd, hz]
    · simp only [setAdd, if_neg hz]
      rw [if_pos (by simp)]
  · exact setFoldl_card ops (setEmpty T) (by simp [setEmpty])

/-- Witness for claim C10 on the singleton set containing 1: re-adding 1 and
removing 2 are no-ops, adding 3 is idempotent, and the size invariant holds
after [Add 5, Add 5, Remove 7, Clear, Add 9]. -/
theorem set_add_idempotent_c10_witness :
    setAdd ({ items := {1}, size := 1 } : SetState Int) 1 =
      ({ items := {1}, size := 1 } : SetState Int) ∧
    setRemove ({ items := {1}, size := 1 } : SetState Int) 2 =
      ({ items := {1}, size := 1 } : SetState Int) ∧
    setAdd (setAdd ({ items := {1}, size := 1 } : SetState Int) 3) 3 =
      setAdd ({ items := {1}, size := 1 } : SetState Int) 3 ∧
    (setExec [SOp.add (5 : Int), SOp.add 5, SOp.rem 7, SOp.clr, SOp.add 9]).size =
      (setExec [SOp.add (5 : Int), SOp.add 5, SOp.rem 7, SOp.clr, SOp.add 9]).items.card :=
  set_add_idempotent_c10 ({ items := {1}, size := 1 } : SetState Int) 1 2 3
    ([SOp.add 5, SOp.add 5, SOp.rem 7, SOp.clr, SOp.add 9] : List (SOp Int))
    (by decide) (by decide)

/-! ## Copy independence (src/bst/bst.go `Copy`, src/unnamed/part_002 `Copy`)

`BST.Copy` builds the copy by explicit pointer surgery: a BFS work queue of
(original, copy) node pairs, a closure `copyNode` that allocates a fresh node
with the same key/value and nil children, and assignments `copy.left = ...` /
`copy.right = ...`.  Whether the copy shares nodes with the original is a heap
property, so this part of the development models the heap explicitly: a
`Store` is an allocator over `Nat` addresses (`next` is the next fresh one),
and `ReprT s r t A` says that from root pointer `r` the store lays out
exactly the abstract tree `t` on the address set `A`, with no sharing.
`PriorityQueue.Copy` copies the backing slice element by element into a fresh
slice of value-type nodes, which in the list embedding is the identity. -/

structure NodeR (K V : Type) where
  key : K
  val : V
  left : Option Nat
  right : Option Nat

structure Store (K V : Type) where
  mem : Nat → NodeR K V
  next : Nat

/-- Allocation (Go `&Node[K, V]{...}`): a fresh address now holds `n`. -/
def Store.alloc (s : Store K V) (n : NodeR K V) : Store K V × Nat :=
  ({ mem := fun a => if a = s.next then n else s.mem a, next := s.next + 1 },
    s.next)

/-- Pointer write `node.left = p` at address `a`. -/
def Store.setLeft (s : Store K V) (a : Nat) (p : Option Nat) : Store K V :=
  { s with mem := fun b => if b = a then { s.mem a with left := p } else s.mem b }

/-- Pointer write `node.right = p` at address `a`. -/
def Store.setRight (s : Store K V) (a : Nat) (p : Option Nat) : Store K V :=
  { s with mem := fun b => if b = a then { s.mem a with right := p } else s.mem b }

theorem Store.next_alloc (s : Store K V) (n : NodeR K V) :
    (s.alloc n).1.next = s.next + 1 := rfl

theorem Store.mem_alloc_ne (s : Store K V) (n : NodeR K V) {a : Nat}
    (h : a ≠ s.next) : (s.alloc n).1.mem a = s.mem a := by
  simp [Store.alloc, h]

theorem Store.mem_alloc_self (s : Store K V) (n : NodeR K V) :
    (s.alloc n).1.mem s.next = n := by
  simp [Store.alloc]

theorem Store.next_setLeft (s : Store K V) (a : Nat) (p : Option Nat) :
    (s.setLeft a p).next = s.next := rfl

theorem Store.mem_setLeft_ne (s : Store K V) (a : Nat) (p : Option Nat)
    {b : Nat} (h : b ≠ a) : (s.setLeft a p).mem b = s.mem b := by
  simp [Store.setLeft, h]

theorem Store.mem_setLeft_self (s : Store K V) (a : Nat) (p : Option Nat) :
    (s.setLeft a p).mem a = { s.mem a with left := p } := by
  simp [Store.setLeft]

theorem Store.next_setRight (s : Store K V) (a : Nat) (p : Option Nat) :
    (s.setRight a p).next = s.next := rfl

theorem Store.mem_setRight_ne (s : Store K V) (a : Nat) (p : Option Nat)
    {b : Nat} (h : b ≠ a) : (s.setRight a p).mem b = s.mem b := by
  simp [Store.setRight, h]

theorem Store.mem_setRight_self (s : Store K V) (a : Nat) (p : Option Nat) :
    (s.setRight a p).mem a = { s.mem a with right := p } := by
  simp [Store.setRight]

/-- `ReprT s r t A`: from root pointer `r` the store `s` lays out exactly the
abstract tree `t`, the visited addresses being the set `A`, with no sharing
(each address carries one node of the tree). -/
inductive ReprT (s : Store K V) : Option Nat → Tree K V → Finset Nat → Prop where
  | nil : ReprT s none Tree.nil ∅
  | node (a : Nat) (t1 t2 : Tree K V) (A1 A2 : Finset Nat) :
      ReprT s ((s.mem a).left) t1 A1 →
      ReprT s ((s.mem a).right) t2 A2 →
      a ∉ A1 → a ∉ A2 → Disjoint A1 A2 →
      ReprT s (some a) (Tree.node ((s.mem a).key) ((s.mem a).val) t1 t2)
        (insert a (A1 ∪ A2))

theorem ReprT_none_inv {s : Store K V} {t : Tree K V} {A : Finset Nat}
    (h : ReprT s none t A) : t = Tree.nil ∧ A = ∅ := by
  cases h
  exact ⟨rfl, rfl⟩

theorem ReprT_some_inv {s : Store K V} {a : Nat} {t : Tree K V} {A : Finset Nat}
    (h : ReprT s (some a) t A) :
    ∃ t1 t2 A1 A2,
      t = Tree.node ((s.mem a).key) ((s.mem a).val) t1 t2 ∧
      A = insert a (A1 ∪ A2) ∧
      ReprT s ((s.mem a).left) t1 A1 ∧ ReprT s ((s.mem a).right) t2 A2 ∧
      a ∉ A1 ∧ a ∉ A2 ∧ Disjoint A1 A2 := by
  cases h with
  | node a t1 t2 A1 A2 h1 h2 ha1 ha2 hd =>
    exact ⟨t1, t2, A1, A2, rfl, rfl, h1, h2, ha1, ha2, hd⟩

/-- Frame rule: a representation only depends on the cells it occupies. -/
theorem ReprT_frame {s s2 : Store K V} {r : Option Nat} {t : Tree K V}
    {A : Finset Nat} (h : ReprT s r t A) :
    (∀ a ∈ A, s2.mem a = s.mem a) → ReprT s2 r t A := by
  induction h with
  | nil => intro _; exact ReprT.nil
  | node a t1 t2 A1 A2 h1 h2 ha1 ha2 hd ih1 ih2 =>
    intro hag
    have hmema : s2.mem a = s.mem a := hag a (by simp)
    have r1 : ReprT s2 ((s2.mem a).left) t1 A1 := by
      rw [hmema]
      exact ih1 (fun b hb => hag b (by simp [hb]))
    have r2 : ReprT s2 ((s2.mem a).right) t2 A2 := by
      rw [hmema]
      exact ih2 (fun b hb => hag b (by simp [hb]))
    have hn := ReprT.node a t1 t2 A1 A2 r1 r2 ha1 ha2 hd
    rw [hmema] at hn
    exact hn

/-- The Go closure `copyNode` applied to a non-nil node (every call site is
guarded: the root by the early `bst.root == nil` return, the children by
`original.left != nil` / `original.right != nil`): allocate a fresh node with
the same key and value and nil children, returning its address. -/
def copyNode (s : Store K V) (a : Nat) : Store K V × Nat :=
  s.alloc { key := (s.mem a).key, val := (s.mem a).val, left := none, right := none }

/-- BFS loop of `BST.Copy` over the work queue of (original, copy) address
pairs.  `fuel` bounds the number of iterations: the Go loop dequeues one pair
per iteration and every pair enqueued corresponds to one distinct node of the
original tree, so the loop runs at most (number of nodes) times and `fuel =
Tree.tsize` of the original makes the model exhaust the queue exactly as the
Go loop does (proved in `copyLoop_correct`). -/
def copyLoop : Nat → Store K V → List (Nat × Nat) → Store K V
  | 0, s, _ => s
  | _ + 1, s, [] => s
  | fuel + 1, s, (original, cp) :: rest =>
    let step1 : Store K V × List (Nat × Nat) :=
      match (s.mem original).left with
      | none => (s, rest)
      | some ol =>
        let c1 := copyNode s ol
        (c1.1.setLeft cp (some c1.2), rest ++ [(ol, c1.2)])
    let step2 : Store K V × List (Nat × Nat) :=
      match (step1.1.mem original).right with
      | none => step1
      | some orr =>
        let c2 := copyNode step1.1 orr
        (c2.1.setRight cp (some c2.2), step1.2 ++ [(orr, c2.2)])
    copyLoop fuel step2.1 step2.2

/-- Model of `BST.Copy` on the root pointer: nil root gives the empty BST;
otherwise copy the root node and run the BFS loop on the singleton queue. -/
def copyBST (fuel : Nat) (s : Store K V) (root : Option Nat) :
    Store K V × Option Nat :=
  match root with
  | none => (s, none)
  | some r =>
    let c0 := copyNode s r
    (copyLoop fuel c0.1 [(r, c0.2)], some c0.2)

theorem copyNode_addr (s : Store K V) (a : Nat) : (copyNode s a).2 = s.next := rfl

theorem copyNode_next (s : Store K V) (a : Nat) :
    (copyNode s a).1.next = s.next + 1 := rfl

theorem copyNode_mem_ne (s : Store K V) (a : Nat) {b : Nat} (h : b ≠ s.next) :
    (copyNode s a).1.mem b = s.mem b :=
  Store.mem_alloc_ne s _ h

theorem copyNode_mem_self (s : Store K V) (a : Nat) :
    (copyNode s a).1.mem s.next =
      { key := (s.mem a).key, val := (s.mem a).val, left := none, right := none } :=
  Store.mem_alloc_self s _

theorem copyLoop_cons_nn (fuel : Nat) (s : Store K V) (o c : Nat)
    (q : List (Nat × Nat)) (hl : (s.mem o).left = none)
    (hr : (s.mem o).right = none) :
    copyLoop (fuel + 1) s ((o, c) :: q) = copyLoop fuel s q := by
  simp only [copyLoop, hl, hr]

theorem copyLoop_cons_sn (fuel : Nat) (s : Store K V) (o c ol : Nat)
    (q : List (Nat × Nat)) (hl : (s.mem o).left = some ol)
    (hr : (s.mem o).right = none) (hoc : o ≠ c) (hon : o ≠ s.next) :
    copyLoop (fuel + 1) s ((o, c) :: q) =
      copyLoop fuel ((copyNode s ol).1.setLeft c (some (copyNode s ol).2))
        (q ++ [(ol, (copyNode s ol).2)]) := by
  have hr2 : ((((copyNode s ol).1.setLeft c (some (copyNode s ol).2)).mem o).right)
      = none := by
    rw [Store.mem_setLeft_ne _ _ _ hoc, copyNode_mem_ne s ol hon, hr]
  simp only [copyLoop, hl, hr2]

theorem copyLoop_cons_ns (fuel : Nat) (s : Store K V) (o c orr : Nat)
    (q : List (Nat × Nat)) (hl : (s.mem o).left = none)
    (hr : (s.mem o).right = some orr) :
    copyLoop (fuel + 1) s ((o, c) :: q) =
      copyLoop fuel ((copyNode s orr).1.setRight c (some (copyNode s orr).2))
        (q ++ [(orr, (copyNode s orr).2)]) := by
  simp only [copyLoop, hl, hr]

theorem copyLoop_cons_ss (fuel : Nat) (s : Store K V) (o c ol orr : Nat)
    (q : List (Nat × Nat)) (hl : (s.mem o).left = some ol)
    (hr : (s.mem o).right = some orr) (hoc : o ≠ c) (hon : o ≠ s.next) :
    copyLoop (fuel + 1) s ((o, c) :: q) =
      copyLoop fuel
        ((copyNode ((copyNode s ol).1.setLeft c (some (copyNode s ol).2)) orr).1.setRight
          c (some (copyNode ((copyNode s ol).1.setLeft c (some (copyNode s ol).2)) orr).2))
        ((q ++ [(ol, (copyNode s ol).2)]) ++
          [(orr, (copyNode ((copyNode s ol).1.setLeft c (some (copyNode s ol).2)) orr).2)]) := by
  have hr2 : ((((copyNode s ol).1.setLeft c (some (copyNode s ol).2)).mem o).right)
      = some orr := by
    rw [Store.mem_setLeft_ne _ _ _ hoc, copyNode_mem_ne s ol hon, hr]
  simp only [copyLoop, hl, hr2]

/-- The copy addresses of a work queue (with the subtree each original
represents carried alongside for specification purposes). -/
def copyRoots (l : List ((Nat × Nat) × Tree K V)) : List Nat :=
  l.map fun pt => pt.1.2

/-- `ReprAll s lo hi l U`: every (pair, tree) entry of `l` has its copy
address representing its tree on a footprint inside `{copy address} ∪ [lo,
hi)`, the footprints are pairwise disjoint, and `U` is their union. -/
inductive ReprAll (s : Store K V) (lo hi : Nat) :
    List ((Nat × Nat) × Tree K V) → Finset Nat → Prop where
  | nil : ReprAll s lo hi [] ∅
  | cons (pt : (Nat × Nat) × Tree K V) (rest : List ((Nat × Nat) × Tree K V))
      (B C : Finset Nat) :
      ReprT s (some pt.1.2) pt.2 B →
      B ⊆ insert pt.1.2 (Finset.range hi \ Finset.range lo) →
      Disjoint B C →
      ReprAll s lo hi rest C →
      ReprAll s lo hi (pt :: rest) (B ∪ C)

theorem reprAll_mono_lo {s : Store K V} {lo lo2 hi : Nat}
    {l : List ((Nat × Nat) × Tree K V)} {U : Finset Nat} (hlo : lo2 ≤ lo)
    (h : ReprAll s lo hi l U) : ReprAll s lo2 hi l U := by
  induction h with
  | nil => exact ReprAll.nil
  | cons pt rest B C hB hsub hd _ ih =>
    refine ReprAll.cons pt rest B C hB ?_ hd ih
    refine hsub.trans (Finset.insert_subset_insert _ ?_)
    exact Finset.sdiff_subset_sdiff (le_refl _) (Finset.range_subset.2 hlo)

theorem reprAll_subset {s : Store K V} {lo hi : Nat}
    {l : List ((Nat × Nat) × Tree K V)} {U : Finset Nat}
    (h : ReprAll s lo hi l U) :
    U ⊆ (copyRoots l).toFinset ∪ (Finset.range hi \ Finset.range lo) := by
  induction h with
  | nil => simp
  | cons pt rest B C hB hsub hd _ ih =>
    have hcons : copyRoots (pt :: rest) = pt.1.2 :: copyRoots rest := rfl
    intro a ha
    rcases Finset.mem_union.1 ha with ha | ha
    · rcases Finset.mem_insert.1 (hsub ha) with ha | ha
      · refine Finset.mem_union_left _ ?_
        rw [hcons, List.toFinset_cons]
        exact Finset.mem_insert.2 (Or.inl ha)
      · exact Finset.mem_union_right _ ha
    · rcases Finset.mem_union.1 (ih ha) with ha | ha
      · refine Finset.mem_union_left _ ?_
        rw [hcons, List.toFinset_cons]
        exact Finset.mem_insert.2 (Or.inr ha)
      · exact Finset.mem_union_right _ ha

theorem reprAll_append_inv {s : Store K V} {lo hi : Nat}
    {l1 l2 : List ((Nat × Nat) × Tree K V)} {U : Finset Nat}
    (h : ReprAll s lo hi (l1 ++ l2) U) :
    ∃ U1 U2, U = U1 ∪ U2 ∧ Disjoint U1 U2 ∧
      ReprAll s lo hi l1 U1 ∧ ReprAll s lo hi l2 U2 := by
  induction l1 generalizing U with
  | nil =>
    exact ⟨∅, U, by simp, by simp, ReprAll.nil, by simpa using h⟩
  | cons pt l1 ih =>
    rw [List.cons_append] at h
    cases h with
    | cons _ _ B C hB hsub hd htail =>
      obtain ⟨U1, U2, hU, hd12, h1, h2⟩ := ih htail
      refine ⟨B ∪ U1, U2, by rw [hU, Finset.union_assoc], ?_, ?_, h2⟩
      · refine Finset.disjoint_union_left.2 ⟨?_, hd12⟩
        exact hd.mono_right (by rw [hU]; exact Finset.subset_union_right)
      · exact ReprAll.cons pt l1 B U1 hB hsub
          (hd.mono_right (by rw [hU]; exact Finset.subset_union_left)) h1

/-- Invariant of one work-queue entry `p` holding original/copy addresses,
with `t` the subtree the original represents: the original's footprint lies
among the pre-existing addresses (below `N0`), and the copy address is an
already-allocated node holding the root key/value with nil children. -/
def pairOK (N0 : Nat) (s : Store K V) (p : Nat × Nat) (t : Tree K V) : Prop :=
  ∃ k v t1 t2 A,
    t = Tree.node k v t1 t2 ∧
    ReprT s (some p.1) t A ∧
    A ⊆ Finset.range N0 ∧
    N0 ≤ p.2 ∧ p.2 < s.next ∧
    s.mem p.2 = { key := k, val := v, left := none, right := none }

theorem pairOK_transfer {N0 : Nat} {s s2 : Store K V} {p : Nat × Nat}
    {t : Tree K V} (h : pairOK N0 s p t) (hnext : s.next ≤ s2.next)
    (hlow : ∀ a, a < N0 → s2.mem a = s.mem a) (hp2 : s2.mem p.2 = s.mem p.2) :
    pairOK N0 s2 p t := by
  obtain ⟨k, v, t1, t2, A, ht, hrep, hA, h1, h2, hmem⟩ := h
  refine ⟨k, v, t1, t2, A, ht, ?_, hA, h1, by omega, by rw [hp2, hmem]⟩
  exact ReprT_frame hrep (fun a ha => hlow a (by simpa using hA ha))

theorem pairOK_intro {N0 : Nat} {s : Store K V} {po pc : Nat} {t t1 t2 : Tree K V}
    {A : Finset Nat} (k : K) (v : V) (ht : t = Tree.node k v t1 t2)
    (hrep : ReprT s (some po) t A) (hA : A ⊆ Finset.range N0)
    (h1 : N0 ≤ pc) (h2 : pc < s.next)
    (hm : s.mem pc = { key := k, val := v, left := none, right := none }) :
    pairOK N0 s (po, pc) t :=
  ⟨k, v, t1, t2, A, ht, hrep, hA, h1, h2, hm⟩

theorem insert_fresh_subset {r lo mid hi : Nat} {B : Finset Nat}
    (hB : B ⊆ insert r (Finset.range hi \ Finset.range mid))
    (hr1 : lo ≤ r) (hr2 : r < hi) (hmid : lo ≤ mid) :
    B ⊆ Finset.range hi \ Finset.range lo := by
  intro x hx
  rcases Finset.mem_insert.1 (hB hx) with rfl | hx2
  · simp only [Finset.mem_sdiff, Finset.mem_range]
    omega
  · simp only [Finset.mem_sdiff, Finset.mem_range] at hx2 ⊢
    omega

theorem copyLoop_correct (N0 : Nat) (fuel : Nat) :
    ∀ (s : Store K V) (qts : List ((Nat × Nat) × Tree K V)),
      N0 ≤ s.next →
      (∀ pt ∈ qts, pairOK N0 s pt.1 pt.2) →
      (copyRoots qts).Nodup →
      ((qts.map fun pt => (pt.2).tsize).sum ≤ fuel) →
      s.next ≤ (copyLoop fuel s (qts.map Prod.fst)).next ∧
      (∀ a, a < s.next → a ∉ copyRoots qts →
        (copyLoop fuel s (qts.map Prod.fst)).mem a = s.mem a) ∧
      ∃ U, ReprAll (copyLoop fuel s (qts.map Prod.fst)) s.next
        (copyLoop fuel s (qts.map Prod.fst)).next qts U := by
  induction fuel with
  | zero =>
    intro s qts hN hpairs hnd hfuel
    have hq : qts = [] := by
      cases qts with
      | nil => rfl
      | cons pt rest =>
        exfalso
        obtain ⟨k, v, t1, t2, A, ht, _⟩ := hpairs pt (by simp)
        simp only [List.map_cons, List.sum_cons, ht, Tree.tsize] at hfuel
        omega
    subst hq
    exact ⟨le_refl _, fun a _ _ => rfl, ⟨∅, ReprAll.nil⟩⟩
  | succ fuel ih =>
    intro s qts hN hpairs hnd hfuel
    cases qts with
    | nil => exact ⟨le_refl _, fun a _ _ => rfl, ⟨∅, ReprAll.nil⟩⟩
    | cons pt rest =>
      obtain ⟨⟨o, c⟩, t⟩ := pt
      obtain ⟨k, v, t1, t2, A, ht, hrep, hA, hcN0, hcs, hmemc⟩ :=
        hpairs ⟨⟨o, c⟩, t⟩ (by simp)
      subst ht
      dsimp only at hrep hcN0 hcs hmemc
      obtain ⟨t1w, t2w, A1, A2, htEq, hAEq, h1, h2, ho1, ho2, hd12⟩ :=
        ReprT_some_inv hrep
      injection htEq with hk hv ht1 ht2
      subst hk
      subst hv
      subst ht1
      subst ht2
      have hoN0 : o < N0 := by
        have ho : o ∈ A := by rw [hAEq]; exact Finset.mem_insert_self o _
        simpa using hA ho
      have hos : o < s.next := lt_of_lt_of_le hoN0 hN
      have hoc : o ≠ c := by omega
      have hon : o ≠ s.next := by omega
      have hA1 : A1 ⊆ Finset.range N0 := by
        refine subset_trans ?_ hA
        rw [hAEq]
        intro x hx
        exact Finset.mem_insert_of_mem (Finset.mem_union_left _ hx)
      have hA2 : A2 ⊆ Finset.range N0 := by
        refine subset_trans ?_ hA
        rw [hAEq]
        intro x hx
        exact Finset.mem_insert_of_mem (Finset.mem_union_right _ hx)
      have hndc := hnd
      simp only [copyRoots, List.map_cons, List.nodup_cons] at hndc
      obtain ⟨hcnotin, hndtail⟩ := hndc
      have hrestlt : ∀ pt2 ∈ rest, N0 ≤ pt2.1.2 ∧ pt2.1.2 < s.next := by
        intro pt2 h2m
        obtain ⟨_, _, _, _, _, _, _, _, hb1, hb2, _⟩ :=
          hpairs pt2 (List.mem_cons_of_mem _ h2m)
        exact ⟨hb1, hb2⟩
      simp only [List.map_cons, List.sum_cons, Tree.tsize] at hfuel
      cases hl : (s.mem o).left with
      | none =>
        rw [hl] at h1
        obtain ⟨ht1n, hA1n⟩ := ReprT_none_inv h1
        subst ht1n
        subst hA1n
        cases hr : (s.mem o).right with
        | none =>
          rw [hr] at h2
          obtain ⟨ht2n, hA2n⟩ := ReprT_none_inv h2
          subst ht2n
          subst hA2n
          obtain ⟨ihnext, ihframe, U1, ihall⟩ := ih s rest hN
            (fun pt2 h2m => hpairs pt2 (List.mem_cons_of_mem _ h2m))
            hndtail (by simp only [Tree.tsize] at hfuel ⊢; omega)
          have hstep : copyLoop (fuel + 1) s
              (List.map Prod.fst ((((o, c), Tree.node (s.mem o).key (s.mem o).val
                Tree.nil Tree.nil)) :: rest)) =
              copyLoop fuel s (List.map Prod.fst rest) := by
            simp only [List.map_cons]
            exact copyLoop_cons_nn fuel s o c (rest.map Prod.fst) hl hr
          rw [hstep]
          refine ⟨ihnext, ?_, ?_⟩
          · intro a ha hain
            simp only [copyRoots, List.map_cons, List.mem_cons] at hain
            push_neg at hain
            exact ihframe a ha hain.2
          · have hcmem : (copyLoop fuel s (List.map Prod.fst rest)).mem c = s.mem c :=
              ihframe c hcs hcnotin
            have hlft : ((copyLoop fuel s (List.map Prod.fst rest)).mem c).left = none := by
              rw [hcmem, hmemc]
            have hrgt : ((copyLoop fuel s (List.map Prod.fst rest)).mem c).right = none := by
              rw [hcmem, hmemc]
            have hnode := ReprT.node (s := copyLoop fuel s (List.map Prod.fst rest))
              c Tree.nil Tree.nil ∅ ∅
              (by rw [hlft]; exact ReprT.nil) (by rw [hrgt]; exact ReprT.nil)
              (by simp) (by simp) (by simp)
            rw [hcmem, hmemc] at hnode
            dsimp only at hnode
            have hcU1 : c ∉ U1 := by
              intro hc2
              rcases Finset.mem_union.1 (reprAll_subset ihall hc2) with h3 | h3
              · exact hcnotin (List.mem_toFinset.1 h3)
              · exact absurd ((Finset.mem_sdiff.1 h3).2) (by simp [Finset.mem_range, hcs])
            refine ⟨insert c (∅ ∪ ∅) ∪ U1, ReprAll.cons _ rest _ U1 hnode ?_ ?_ ihall⟩
            · intro x hx
              simp only [Finset.union_empty, Finset.mem_insert, Finset.not_mem_empty,
                or_false] at hx
              subst hx
              exact Finset.mem_insert_self _ _
            · simp only [Finset.union_empty]
              exact Finset.disjoint_singleton_left.2 hcU1
        | some orr =>
          rw [hr] at h2
          obtain ⟨t21, t22, A21, A22, ht2eq, hA2eq, h21, h22, horr1, horr2, hd2w⟩ :=
            ReprT_some_inv h2
          have horrN0 : orr < N0 := by
            have horrA : orr ∈ A2 := by rw [hA2eq]; exact Finset.mem_insert_self _ _
            simpa using hA2 horrA
          have hstep := copyLoop_cons_ns fuel s o c orr (rest.map Prod.fst) hl hr
          rw [copyNode_addr] at hstep
          have hs2next : ((copyNode s orr).1.setRight c (some s.next)).next =
              s.next + 1 := rfl
          have hlow : ∀ a, a < s.next → a ≠ c →
              ((copyNode s orr).1.setRight c (some s.next)).mem a = s.mem a := by
            intro a ha hac
            rw [Store.mem_setRight_ne _ _ _ hac, copyNode_mem_ne s orr (by omega)]
          have hmem_ar : ((copyNode s orr).1.setRight c (some s.next)).mem s.next =
              { key := (s.mem orr).key, val := (s.mem orr).val,
                left := none, right := none } := by
            rw [Store.mem_setRight_ne _ _ _ (by omega : s.next ≠ c), copyNode_mem_self]
          have hmem_c2 : ((copyNode s orr).1.setRight c (some s.next)).mem c =
              { key := (s.mem o).key, val := (s.mem o).val,
                left := none, right := some s.next } := by
            rw [Store.mem_setRight_self, copyNode_mem_ne s orr (by omega : c ≠ s.next),
              hmemc]
          obtain ⟨s2, hs2g⟩ : ∃ x, ((copyNode s orr).1.setRight c (some s.next)) = x :=
            ⟨_, rfl⟩
          rw [hs2g] at hstep hs2next hlow hmem_ar hmem_c2
          have hlowN0 : ∀ a, a < N0 → s2.mem a = s.mem a :=
            fun a ha => hlow a (by omega) (by omega)
          have hpairs2 : ∀ pt2 ∈ rest ++ [((orr, s.next), t2)],
              pairOK N0 s2 pt2.1 pt2.2 := by
            intro pt2 hm
            rcases List.mem_append.1 hm with hm | hm
            · refine pairOK_transfer (hpairs pt2 (List.mem_cons_of_mem _ hm))
                (by omega) hlowN0 ?_
              have hb := hrestlt pt2 hm
              have hne : pt2.1.2 ≠ c := by
                intro he
                exact hcnotin (he ▸ List.mem_map_of_mem _ hm)
              exact hlow pt2.1.2 (by omega) hne
            · simp only [List.mem_singleton] at hm
              subst hm
              exact pairOK_intro (s.mem orr).key (s.mem orr).val ht2eq
                (ReprT_frame h2 (fun a ha => hlowN0 a (by simpa using hA2 ha)))
                hA2 hN (by omega) hmem_ar
          have hnd2 : (copyRoots (rest ++ [((orr, s.next), t2)])).Nodup := by
            simp only [copyRoots, List.map_append, List.map_cons, List.map_nil]
            rw [List.nodup_append]
            refine ⟨hndtail, List.nodup_singleton _, ?_⟩
            intro y hy hy2
            simp only [List.mem_singleton] at hy2
            subst hy2
            obtain ⟨pt2, hm, hpe⟩ := List.mem_map.1 hy
            have := (hrestlt pt2 hm).2
            omega
          have hfuel2 : ((rest ++ [((orr, s.next), t2)]).map fun pt => pt.2.tsize).sum
              ≤ fuel := by
            simp only [List.map_append, List.map_cons, List.map_nil, List.sum_append,
              List.sum_cons, List.sum_nil, Tree.tsize] at hfuel ⊢
            omega
          obtain ⟨ihnext, ihframe, U2full, ihall⟩ :=
            ih s2 (rest ++ [((orr, s.next), t2)]) (by omega) hpairs2 hnd2 hfuel2
          simp only [List.map_append, List.map_cons, List.map_nil] at ihnext ihframe ihall
          simp only [List.map_cons]
          rw [hstep]
          obtain ⟨sfin, hsf⟩ :
              ∃ x, copyLoop fuel s2 (List.map Prod.fst rest ++ [(orr, s.next)]) = x :=
            ⟨_, rfl⟩
          rw [hsf] at ihnext ihframe ihall ⊢
          have hcnotin2 : c ∉ copyRoots (rest ++ [((orr, s.next), t2)]) := by
            simp only [copyRoots, List.map_append, List.map_cons, List.map_nil,
              List.mem_append, List.mem_singleton]
            push_neg
            exact ⟨hcnotin, by omega⟩
          refine ⟨by omega, ?_, ?_⟩
          · intro a ha hain
            simp only [copyRoots, List.map_cons, List.mem_cons] at hain
            push_neg at hain
            obtain ⟨hac, hain⟩ := hain
            rw [ihframe a (by omega) (by
              simp only [copyRoots, List.map_append, List.map_cons, List.map_nil,
                List.mem_append, List.mem_singleton]
              push_neg
              exact ⟨hain, by omega⟩)]
            exact hlow a ha hac
          · obtain ⟨U1, U2x, hUeq, hdU, hallRest, hallNew⟩ := reprAll_append_inv ihall
            cases hallNew with
            | cons _ _ B2 C2 hB2 hB2sub hdB2 htl =>
              cases htl
              dsimp only at hB2 hB2sub
              have hcmem : sfin.mem c = s2.mem c := ihframe c (by omega) hcnotin2
              have hlft : (sfin.mem c).left = none := by
                rw [hcmem, hmem_c2]
              have hrgt : (sfin.mem c).right = some s.next := by
                rw [hcmem, hmem_c2]
              have hrl : ReprT sfin ((sfin.mem c).left) Tree.nil ∅ := by
                rw [hlft]; exact ReprT.nil
              have hrr : ReprT sfin ((sfin.mem c).right) t2 B2 := by
                rw [hrgt]; exact hB2
              have hcB2 : c ∉ B2 := by
                intro hc2
                rcases Finset.mem_insert.1 (hB2sub hc2) with he | he
                · omega
                · have := (Finset.mem_sdiff.1 he).2
                  simp only [Finset.mem_range] at this
                  omega
              have hnode := ReprT.node c Tree.nil t2 ∅ B2 hrl hrr
                (by simp) hcB2 (by simp)
              have hkey : (sfin.mem c).key = (s.mem o).key := by rw [hcmem, hmem_c2]
              have hval : (sfin.mem c).val = (s.mem o).val := by rw [hcmem, hmem_c2]
              rw [hkey, hval] at hnode
              have hcU1 : c ∉ U1 := by
                intro hc2
                rcases Finset.mem_union.1 (reprAll_subset hallRest hc2) with h3 | h3
                · exact hcnotin (List.mem_toFinset.1 h3)
                · have := (Finset.mem_sdiff.1 h3).2
                  simp only [Finset.mem_range] at this
                  omega
              refine ⟨insert c (∅ ∪ B2) ∪ U1,
                ReprAll.cons _ rest _ U1 hnode ?_ ?_
                  (reprAll_mono_lo (by omega) hallRest)⟩
              · intro x hx
                rcases Finset.mem_insert.1 hx with rfl | hx2
                · exact Finset.mem_insert_self _ _
                · refine Finset.mem_insert_of_mem ?_
                  rcases Finset.mem_union.1 hx2 with hx3 | hx3
                  · exact absurd hx3 (Finset.not_mem_empty x)
                  · exact insert_fresh_subset hB2sub (le_refl _) (by omega)
                      (by omega) hx3
              · rw [Finset.disjoint_insert_left]
                refine ⟨hcU1, ?_⟩
                rw [Finset.empty_union]
                refine Finset.disjoint_left.2 ?_
                intro x hx hx2
                exact (Finset.disjoint_right.1 hdU (Finset.mem_union_left _ hx)) hx2
      | some ol =>
        rw [hl] at h1
        obtain ⟨t11, t12, A11, A12, ht1eq, hA1eq, h11, h12, hol1, hol2, hd1w⟩ :=
          ReprT_some_inv h1
        have holN0 : ol < N0 := by
          have holA : ol ∈ A1 := by rw [hA1eq]; exact Finset.mem_insert_self _ _
          simpa using hA1 holA
        cases hr : (s.mem o).right with
        | none =>
          rw [hr] at h2
          obtain ⟨ht2n, hA2n⟩ := ReprT_none_inv h2
          subst ht2n
          subst hA2n
          have hstep := copyLoop_cons_sn fuel s o c ol (rest.map Prod.fst) hl hr hoc hon
          rw [copyNode_addr] at hstep
          have hs2next : ((copyNode s ol).1.setLeft c (some s.next)).next =
              s.next + 1 := rfl
          have hlow : ∀ a, a < s.next → a ≠ c →
              ((copyNode s ol).1.setLeft c (some s.next)).mem a = s.mem a := by
            intro a ha hac
            rw [Store.mem_setLeft_ne _ _ _ hac, copyNode_mem_ne s ol (by omega)]
          have hmem_al : ((copyNode s ol).1.setLeft c (some s.next)).mem s.next =
              { key := (s.mem ol).key, val := (s.mem ol).val,
                left := none, right := none } := by
            rw [Store.mem_setLeft_ne _ _ _ (by omega : s.next ≠ c), copyNode_mem_self]
          have hmem_c2 : ((copyNode s ol).1.setLeft c (some s.next)).mem c =
              { key := (s.mem o).key, val := (s.mem o).val,
                left := some s.next, right := none } := by
            rw [Store.mem_setLeft_self, copyNode_mem_ne s ol (by omega : c ≠ s.next),
              hmemc]
          obtain ⟨s2, hs2g⟩ : ∃ x, ((copyNode s ol).1.setLeft c (some s.next)) = x :=
            ⟨_, rfl⟩
          rw [hs2g] at hstep hs2next hlow hmem_al hmem_c2
          have hlowN0 : ∀ a, a < N0 → s2.mem a = s.mem a :=
            fun a ha => hlow a (by omega) (by omega)
          have hpairs2 : ∀ pt2 ∈ rest ++ [((ol, s.next), t1)],
              pairOK N0 s2 pt2.1 pt2.2 := by
            intro pt2 hm
            rcases List.mem_append.1 hm with hm | hm
            · refine pairOK_transfer (hpairs pt2 (List.mem_cons_of_mem _ hm))
                (by omega) hlowN0 ?_
              have hb := hrestlt pt2 hm
              have hne : pt2.1.2 ≠ c := by
                intro he
                exact hcnotin (he ▸ List.mem_map_of_mem _ hm)
              exact hlow pt2.1.2 (by omega) hne
            · simp only [List.mem_singleton] at hm
              subst hm
              exact pairOK_intro (s.mem ol).key (s.mem ol).val ht1eq
                (ReprT_frame h1 (fun a ha => hlowN0 a (by simpa using hA1 ha)))
                hA1 hN (by omega) hmem_al
          have hnd2 : (copyRoots (rest ++ [((ol, s.next), t1)])).Nodup := by
            simp only [copyRoots, List.map_append, List.map_cons, List.map_nil]
            rw [List.nodup_append]
            refine ⟨hndtail, List.nodup_singleton _, ?_⟩
            intro y hy hy2
            simp only [List.mem_singleton] at hy2
            subst hy2
            obtain ⟨pt2, hm, hpe⟩ := List.mem_map.1 hy
            have := (hrestlt pt2 hm).2
            omega
          have hfuel2 : ((rest ++ [((ol, s.next), t1)]).map fun pt => pt.2.tsize).sum
              ≤ fuel := by
            simp only [List.map_append, List.map_cons, List.map_nil, List.sum_append,
              List.sum_cons, List.sum_nil, Tree.tsize] at hfuel ⊢
            omega
          obtain ⟨ihnext, ihframe, U2full, ihall⟩ :=
            ih s2 (rest ++ [((ol, s.next), t1)]) (by omega) hpairs2 hnd2 hfuel2
          simp only [List.map_append, List.map_cons, List.map_nil] at ihnext ihframe ihall
          simp only [List.map_cons]
          rw [hstep]
          obtain ⟨sfin, hsf⟩ :
              ∃ x, copyLoop fuel s2 (List.map Prod.fst rest ++ [(ol, s.next)]) = x :=
            ⟨_, rfl⟩
          rw [hsf] at ihnext ihframe ihall ⊢
          have hcnotin2 : c ∉ copyRoots (rest ++ [((ol, s.next), t1)]) := by
            simp only [copyRoots, List.map_append, List.map_cons, List.map_nil,
              List.mem_append, List.mem_singleton]
            push_neg
            exact ⟨hcnotin, by omega⟩
          refine ⟨by omega, ?_, ?_⟩
          · intro a ha hain
            simp only [copyRoots, List.map_cons, List.mem_cons] at hain
            push_neg at hain
            obtain ⟨hac, hain⟩ := hain
            rw [ihframe a (by omega) (by
              simp only [copyRoots, List.map_append, List.map_cons, List.map_nil,
                List.mem_append, List.mem_singleton]
              push_neg
              exact ⟨hain, by omega⟩)]
            exact hlow a ha hac
          · obtain ⟨U1, U2x, hUeq, hdU, hallRest, hallNew⟩ := reprAll_append_inv ihall
            cases hallNew with
            | cons _ _ B2 C2 hB2 hB2sub hdB2 htl =>
              cases htl
              dsimp only at hB2 hB2sub
              have hcmem : sfin.mem c = s2.mem c := ihframe c (by omega) hcnotin2
              have hlft : (sfin.mem c).left = some s.next := by
                rw [hcmem, hmem_c2]
              have hrgt : (sfin.mem c).right = none := by
                rw [hcmem, hmem_c2]
              have hrl : ReprT sfin ((sfin.mem c).left) t1 B2 := by
                rw [hlft]; exact hB2
              have hrr : ReprT sfin ((sfin.mem c).right) Tree.nil ∅ := by
                rw [hrgt]; exact ReprT.nil
              have hcB2 : c ∉ B2 := by
                intro hc2
                rcases Finset.mem_insert.1 (hB2sub hc2) with he | he
                · omega
                · have := (Finset.mem_sdiff.1 he).2
                  simp only [Finset.mem_range] at this
                  omega
              have hnode := ReprT.node c t1 Tree.nil B2 ∅ hrl hrr
                hcB2 (by simp) (by simp)
              have hkey : (sfin.mem c).key = (s.mem o).key := by rw [hcmem, hmem_c2]
              have hval : (sfin.mem c).val = (s.mem o).val := by rw [hcmem, hmem_c2]
              rw [hkey, hval] at hnode
              have hcU1 : c ∉ U1 := by
                intro hc2
                rcases Finset.mem_union.1 (reprAll_subset hallRest hc2) with h3 | h3
                · exact hcnotin (List.mem_toFinset.1 h3)
                · have := (Finset.mem_sdiff.1 h3).2
                  simp only [Finset.mem_range] at this
                  omega
              refine ⟨insert c (B2 ∪ ∅) ∪ U1,
                ReprAll.cons _ rest _ U1 hnode ?_ ?_
                  (reprAll_mono_lo (by omega) hallRest)⟩
              · intro x hx
                rcases Finset.mem_insert.1 hx with rfl | hx2
                · exact Finset.mem_insert_self _ _
                · refine Finset.mem_insert_of_mem ?_
                  rcases Finset.mem_union.1 hx2 with hx3 | hx3
                  · exact insert_fresh_subset hB2sub (le_refl _) (by omega)
                      (by omega) hx3
                  · exact absurd hx3 (Finset.not_mem_empty x)
              · rw [Finset.disjoint_insert_left]
                refine ⟨hcU1, ?_⟩
                rw [Finset.union_empty]
                refine Finset.disjoint_left.2 ?_
                intro x hx hx2
                exact (Finset.disjoint_right.1 hdU (Finset.mem_union_left _ hx)) hx2
        | some orr =>
          rw [hr] at h2
          obtain ⟨t21, t22, A21, A22, ht2eq, hA2eq, h21, h22, horr1, horr2, hd2w⟩ :=
            ReprT_some_inv h2
          have horrN0 : orr < N0 := by
            have horrA : orr ∈ A2 := by rw [hA2eq]; exact Finset.mem_insert_self _ _
            simpa using hA2 horrA
          have hstep := copyLoop_cons_ss fuel s o c ol orr (rest.map Prod.fst) hl hr hoc hon
          have hs1next : ((copyNode s ol).1.setLeft c (some s.next)).next =
              s.next + 1 := rfl
          simp only [copyNode_addr, hs1next, List.append_assoc, List.cons_append,
            List.nil_append] at hstep
          have hs2next :
              ((copyNode ((copyNode s ol).1.setLeft c (some s.next)) orr).1.setRight c
                (some (s.next + 1))).next = s.next + 2 := rfl
          have hlow : ∀ a, a < s.next → a ≠ c →
              ((copyNode ((copyNode s ol).1.setLeft c (some s.next)) orr).1.setRight c
                (some (s.next + 1))).mem a = s.mem a := by
            intro a ha hac
            rw [Store.mem_setRight_ne _ _ _ hac,
              copyNode_mem_ne _ orr (by rw [hs1next]; omega),
              Store.mem_setLeft_ne _ _ _ hac, copyNode_mem_ne s ol (by omega)]
          have hmorr : ((copyNode s ol).1.setLeft c (some s.next)).mem orr = s.mem orr := by
            rw [Store.mem_setLeft_ne _ _ _ (by omega : orr ≠ c),
              copyNode_mem_ne s ol (by omega)]
          have hmem_al :
              ((copyNode ((copyNode s ol).1.setLeft c (some s.next)) orr).1.setRight c
                (some (s.next + 1))).mem s.next =
              { key := (s.mem ol).key, val := (s.mem ol).val,
                left := none, right := none } := by
            rw [Store.mem_setRight_ne _ _ _ (by omega : s.next ≠ c),
              copyNode_mem_ne _ orr (by rw [hs1next]; omega),
              Store.mem_setLeft_ne _ _ _ (by omega : s.next ≠ c), copyNode_mem_self]
          have hmem_ar :
              ((copyNode ((copyNode s ol).1.setLeft c (some s.next)) orr).1.setRight c
                (some (s.next + 1))).mem (s.next + 1) =
              { key := (s.mem orr).key, val := (s.mem orr).val,
                left := none, right := none } := by
            rw [Store.mem_setRight_ne _ _ _ (by omega : s.next + 1 ≠ c), ← hs1next,
              copyNode_mem_self, hmorr]
          have hmem_c2 :
              ((copyNode ((copyNode s ol).1.setLeft c (some s.next)) orr).1.setRight c
                (some (s.next + 1))).mem c =
              { key := (s.mem o).key, val := (s.mem o).val,
                left := some s.next, right := some (s.next + 1) } := by
            rw [Store.mem_setRight_self,
              copyNode_mem_ne _ orr (by rw [hs1next]; omega),
              Store.mem_setLeft_self, copyNode_mem_ne s ol (by omega : c ≠ s.next),
              hmemc]
          obtain ⟨s2, hs2g⟩ :
              ∃ x, ((copyNode ((copyNode s ol).1.setLeft c (some s.next)) orr).1.setRight c
                (some (s.next + 1))) = x := ⟨_, rfl⟩
          rw [hs2g] at hstep hs2next hlow hmem_al hmem_ar hmem_c2
          have hlowN0 : ∀ a, a < N0 → s2.mem a = s.mem a :=
            fun a ha => hlow a (by omega) (by omega)
          have hpairs2 : ∀ pt2 ∈ rest ++ [((ol, s.next), t1), ((orr, s.next + 1), t2)],
              pairOK N0 s2 pt2.1 pt2.2 := by
            intro pt2 hm
            rcases List.mem_append.1 hm with hm | hm
            · refine pairOK_transfer (hpairs pt2 (List.mem_cons_of_mem _ hm))
                (by omega) hlowN0 ?_
              have hb := hrestlt pt2 hm
              have hne : pt2.1.2 ≠ c := by
                intro he
                exact hcnotin (he ▸ List.mem_map_of_mem _ hm)
              exact hlow pt2.1.2 (by omega) hne
            · simp only [List.mem_cons, List.mem_singleton, List.not_mem_nil,
                or_false] at hm
              rcases hm with rfl | rfl
              · exact pairOK_intro (s.mem ol).key (s.mem ol).val ht1eq
                  (ReprT_frame h1 (fun a ha => hlowN0 a (by simpa using hA1 ha)))
                  hA1 hN (by omega) hmem_al
              · exact pairOK_intro (s.mem orr).key (s.mem orr).val ht2eq
                  (ReprT_frame h2 (fun a ha => hlowN0 a (by simpa using hA2 ha)))
                  hA2 (by omega) (by omega) hmem_ar
          have hnd2 : (copyRoots
              (rest ++ [((ol, s.next), t1), ((orr, s.next + 1), t2)])).Nodup := by
            simp only [copyRoots, List.map_append, List.map_cons, List.map_nil]
            rw [List.nodup_append]
            refine ⟨hndtail, ?_, ?_⟩
            · refine List.nodup_cons.2 ⟨?_, List.nodup_singleton _⟩
              simp only [List.mem_singleton]
              omega
            · intro y hy hy2
              simp only [List.mem_cons, List.mem_singleton, List.not_mem_nil,
                or_false] at hy2
              obtain ⟨pt2, hm, hpe⟩ := List.mem_map.1 hy
              have := (hrestlt pt2 hm).2
              rcases hy2 with rfl | rfl <;> omega
          have hfuel2 : ((rest ++ [((ol, s.next), t1), ((orr, s.next + 1), t2)]).map
              fun pt => pt.2.tsize).sum ≤ fuel := by
            simp only [List.map_append, List.map_cons, List.map_nil, List.sum_append,
              List.sum_cons, List.sum_nil, Tree.tsize] at hfuel ⊢
            omega
          obtain ⟨ihnext, ihframe, U2full, ihall⟩ :=
            ih s2 (rest ++ [((ol, s.next), t1), ((orr, s.next + 1), t2)]) (by omega)
              hpairs2 hnd2 hfuel2
          simp only [List.map_append, List.map_cons, List.map_nil] at ihnext ihframe ihall
          simp only [List.map_cons]
          rw [hstep]
          obtain ⟨sfin, hsf⟩ :
              ∃ x, copyLoop fuel s2
                (List.map Prod.fst rest ++ [(ol, s.next), (orr, s.next + 1)]) = x :=
            ⟨_, rfl⟩
          rw [hsf] at ihnext ihframe ihall ⊢
          have hcnotin2 : c ∉ copyRoots
              (rest ++ [((ol, s.next), t1), ((orr, s.next + 1), t2)]) := by
            simp only [copyRoots, List.map_append, List.map_cons, List.map_nil,
              List.mem_append, List.mem_cons, List.mem_singleton, List.not_mem_nil,
              or_false]
            push_neg
            exact ⟨hcnotin, by omega, by omega⟩
          refine ⟨by omega, ?_, ?_⟩
          · intro a ha hain
            simp only [copyRoots, List.map_cons, List.mem_cons] at hain
            push_neg at hain
            obtain ⟨hac, hain⟩ := hain
            rw [ihframe a (by omega) (by
              simp only [copyRoots, List.map_append, List.map_cons, List.map_nil,
                List.mem_append, List.mem_cons, List.mem_singleton, List.not_mem_nil,
                or_false]
              push_neg
              exact ⟨hain, by omega, by omega⟩)]
            exact hlow a ha hac
          · obtain ⟨U1, U2x, hUeq, hdU, hallRest, hallNew⟩ := reprAll_append_inv ihall
            cases hallNew with
            | cons _ _ BL C1 hBL hBLsub hdL htl1 =>
              cases htl1 with
              | cons _ _ BR C2 hBR hBRsub hdR htl2 =>
                cases htl2
                dsimp only at hBL hBLsub hBR hBRsub
                have hcmem : sfin.mem c = s2.mem c := ihframe c (by omega) hcnotin2
                have hlft : (sfin.mem c).left = some s.next := by
                  rw [hcmem, hmem_c2]
                have hrgt : (sfin.mem c).right = some (s.next + 1) := by
                  rw [hcmem, hmem_c2]
                have hrl : ReprT sfin ((sfin.mem c).left) t1 BL := by
                  rw [hlft]; exact hBL
                have hrr : ReprT sfin ((sfin.mem c).right) t2 BR := by
                  rw [hrgt]; exact hBR
                have hcBL : c ∉ BL := by
                  intro hc2
                  rcases Finset.mem_insert.1 (hBLsub hc2) with he | he
                  · omega
                  · have := (Finset.mem_sdiff.1 he).2
                    simp only [Finset.mem_range] at this
                    omega
                have hcBR : c ∉ BR := by
                  intro hc2
                  rcases Finset.mem_insert.1 (hBRsub hc2) with he | he
                  · omega
                  · have := (Finset.mem_sdiff.1 he).2
                    simp only [Finset.mem_range] at this
                    omega
                have hdLR : Disjoint BL BR :=
                  hdL.mono_right Finset.subset_union_left
                have hnode := ReprT.node c t1 t2 BL BR hrl hrr hcBL hcBR hdLR
                have hkey : (sfin.mem c).key = (s.mem o).key := by rw [hcmem, hmem_c2]
                have hval : (sfin.mem c).val = (s.mem o).val := by rw [hcmem, hmem_c2]
                rw [hkey, hval] at hnode
                have hcU1 : c ∉ U1 := by
                  intro hc2
                  rcases Finset.mem_union.1 (reprAll_subset hallRest hc2) with h3 | h3
                  · exact hcnotin (List.mem_toFinset.1 h3)
                  · have := (Finset.mem_sdiff.1 h3).2
                    simp only [Finset.mem_range] at this
                    omega
                refine ⟨insert c (BL ∪ BR) ∪ U1,
                  ReprAll.cons _ rest _ U1 hnode ?_ ?_
                    (reprAll_mono_lo (by omega) hallRest)⟩
                · intro x hx
                  rcases Finset.mem_insert.1 hx with rfl | hx2
                  · exact Finset.mem_insert_self _ _
                  · refine Finset.mem_insert_of_mem ?_
                    rcases Finset.mem_union.1 hx2 with hx3 | hx3
                    · exact insert_fresh_subset hBLsub (le_refl _) (by omega)
                        (by omega) hx3
                    · exact insert_fresh_subset hBRsub (by omega) (by omega)
                        (by omega) hx3
                · rw [Finset.disjoint_insert_left]
                  refine ⟨hcU1, Finset.disjoint_union_left.2 ⟨?_, ?_⟩⟩
                  · refine Finset.disjoint_left.2 ?_
                    intro x hx hx2
                    exact (Finset.disjoint_right.1 hdU (Finset.mem_union_left _ hx)) hx2
                  · refine Finset.disjoint_left.2 ?_
                    intro x hx hx2
                    exact (Finset.disjoint_right.1 hdU
                      (Finset.mem_union_right _ (Finset.mem_union_left _ hx))) hx2


/-- Correctness and freshness of `BST.Copy`: with fuel equal to the node
count, the BFS loop terminates with the work queue exhausted, the copy
represents the same abstract tree on a footprint of entirely fresh addresses
(disjoint from every pre-existing address, in particular from the
original's), and the original's representation is untouched. -/
theorem copyBST_correct (s : Store K V) (root : Option Nat)
    (t : Tree K V) (A : Finset Nat) (hrepr : ReprT s root t A)
    (hA : A ⊆ Finset.range s.next) :
    ∃ B, ReprT (copyBST t.tsize s root).1 (copyBST t.tsize s root).2 t B ∧
      (∀ b ∈ B, s.next ≤ b) ∧
      Disjoint A B ∧
      ReprT (copyBST t.tsize s root).1 root t A ∧
      s.next ≤ (copyBST t.tsize s root).1.next := by
  cases root with
  | none =>
    obtain ⟨ht, hAe⟩ := ReprT_none_inv hrepr
    subst ht
    subst hAe
    exact ⟨∅, ReprT.nil, by simp, by simp, ReprT.nil, le_refl _⟩
  | some r =>
    obtain ⟨t1, t2, A1, A2, htEq, hAEq, h1, h2, hr1, hr2, hd12⟩ :=
      ReprT_some_inv hrepr
    have hrA : r ∈ A := by rw [hAEq]; exact Finset.mem_insert_self _ _
    have hrs : r < s.next := by simpa using hA hrA
    have hc0next : (copyNode s r).1.next = s.next + 1 := rfl
    have hc0low : ∀ a, a < s.next → (copyNode s r).1.mem a = s.mem a :=
      fun a ha => copyNode_mem_ne s r (by omega)
    have hpair : pairOK s.next (copyNode s r).1 (r, s.next) t := by
      refine pairOK_intro (s.mem r).key (s.mem r).val htEq
        (ReprT_frame hrepr (fun a ha => hc0low a (by simpa using hA ha)))
        hA (le_refl _) (by omega) ?_
      exact copyNode_mem_self s r
    obtain ⟨hnext, hframe, U, hall⟩ :=
      copyLoop_correct s.next t.tsize (copyNode s r).1 [((r, s.next), t)]
        (by omega)
        (by intro pt2 hm; simp only [List.mem_singleton] at hm; subst hm; exact hpair)
        (by simp [copyRoots])
        (by simp)
    simp only [List.map_cons, List.map_nil] at hnext hframe hall
    cases hall with
    | cons _ _ B C hB hBsub hdB htl =>
      cases htl
      dsimp only at hB hBsub
      have hBfresh : ∀ b ∈ B, s.next ≤ b := by
        intro b hb
        rcases Finset.mem_insert.1 (hBsub hb) with rfl | hb2
        · exact le_refl _
        · have := (Finset.mem_sdiff.1 hb2).2
          simp only [Finset.mem_range] at this
          omega
      have hAlow : ∀ a ∈ A, a < s.next := fun a ha => by simpa using hA ha
      have hsfinmem : ∀ a, a < s.next →
          (copyLoop t.tsize (copyNode s r).1 [(r, s.next)]).mem a = s.mem a := by
        intro a ha
        rw [hframe a (by omega) (by simp [copyRoots]; omega)]
        exact hc0low a ha
      have horig : ReprT (copyLoop t.tsize (copyNode s r).1 [(r, s.next)])
          (some r) t A :=
        ReprT_frame hrepr (fun a ha => hsfinmem a (hAlow a ha))
      refine ⟨B, ?_, hBfresh, ?_, ?_, ?_⟩
      · exact hB
      · refine Finset.disjoint_left.2 ?_
        intro x hx hx2
        have := hAlow x hx
        have := hBfresh x hx2
        omega
      · exact horig
      · calc s.next ≤ (copyNode s r).1.next := by omega
          _ ≤ _ := hnext


/-- Concrete store for exercising the copy theorem: address 0 holds key 10
with left child at address 1 (key 5), addresses from 2 on are free. -/
def storeW : Store Int Int :=
  { mem := fun a =>
      if a = 0 then { key := 10, val := 100, left := some 1, right := none }
      else if a = 1 then { key := 5, val := 50, left := none, right := none }
      else { key := 0, val := 0, left := none, right := none },
    next := 2 }

def treeW : Tree Int Int :=
  Tree.node 10 100 (Tree.node 5 50 Tree.nil Tree.nil) Tree.nil

def footW : Finset Nat := insert 0 (insert 1 (∅ ∪ ∅) ∪ ∅)

/-- Claim C8 (confirmed): `BST.Copy` (src/bst/bst.go) deep-copies the tree by
BFS pointer surgery; modelled on an explicit heap, the copy lays out the same
abstract tree on entirely fresh addresses disjoint from the original's
footprint, the original's layout is untouched by the copy, and each of the
two representations depends only on the cells of its own footprint — so
mutations reached through one root never change the observable state
(traversals, keys, values, size) of the other.  `PriorityQueue.Copy`
(src/unnamed/part_002) copies the backing slice of value-type nodes element
by element, which in the functional embedding is the identity, so the copy is
an independent value as well. -/
theorem copy_independence_c8 (s : Store K V) (root : Option Nat)
    (t : Tree K V) (A : Finset Nat)
    (hrepr : ReprT s root t A) (hA : A ⊆ Finset.range s.next)
    (st : PQState P W) :
    (∃ B, ReprT (copyBST t.tsize s root).1 (copyBST t.tsize s root).2 t B ∧
      Disjoint A B ∧
      ReprT (copyBST t.tsize s root).1 root t A ∧
      (∀ s3 : Store K V,
        (∀ a ∈ A, s3.mem a = (copyBST t.tsize s root).1.mem a) →
        ReprT s3 root t A) ∧
      (∀ s3 : Store K V,
        (∀ a ∈ B, s3.mem a = (copyBST t.tsize s root).1.mem a) →
        ReprT s3 (copyBST t.tsize s root).2 t B)) ∧
    pqCopy st = st := by
  obtain ⟨B, hcopy, hfresh, hdisj, horig, hnext⟩ :=
    copyBST_correct s root t A hrepr hA
  constructor
  · refine ⟨B, hcopy, hdisj, horig, ?_, ?_⟩
    · intro s3 hag
      exact ReprT_frame horig hag
    · intro s3 hag
      exact ReprT_frame hcopy hag
  · have hmap : st.heap.map (fun n => (⟨n.p, n.v⟩ : PQNode P W)) = st.heap := by
      induction st.heap with
      | nil => rfl
      | cons n l ih => rw [List.map_cons, ih]
    show PQState.mk (st.heap.map fun n => ⟨n.p, n.v⟩) st.size st.minHeap = st
    rw [hmap]

/-- Witness for claim C8 on a two-node BST (key 10 with left child key 5,
laid out at addresses 0 and 1 of `storeW`) and an empty min-heap priority
queue. -/
theorem copy_independence_c8_witness :
    (∃ B, ReprT (copyBST treeW.tsize storeW (some 0)).1
        (copyBST treeW.tsize storeW (some 0)).2 treeW B ∧
      Disjoint footW B ∧
      ReprT (copyBST treeW.tsize storeW (some 0)).1 (some 0) treeW footW ∧
      (∀ s3 : Store Int Int,
        (∀ a ∈ footW, s3.mem a = (copyBST treeW.tsize storeW (some 0)).1.mem a) →
        ReprT s3 (some 0) treeW footW) ∧
      (∀ s3 : Store Int Int,
        (∀ a ∈ B, s3.mem a = (copyBST treeW.tsize storeW (some 0)).1.mem a) →
        ReprT s3 (copyBST treeW.tsize storeW (some 0)).2 treeW B)) ∧
    pqCopy (pqEmpty Int Int true) = pqEmpty Int Int true :=
  copy_independence_c8 storeW (some 0) treeW footW
    (ReprT.node 0 (Tree.node 5 50 Tree.nil Tree.nil) Tree.nil
      (insert 1 (∅ ∪ ∅)) ∅
      (ReprT.node 1 Tree.nil Tree.nil ∅ ∅ ReprT.nil ReprT.nil
        (by simp) (by simp) (by simp))
      ReprT.nil (by decide) (by simp) (by simp))
    (by decide)
    (pqEmpty Int Int true)

end DS
